import Mathlib

/-!
Shallow embedding of the nx-kuritkaj build-tooling plugins:

* `libs/nx-plugin/bundle-deps/src/executors/run/executor.ts`
  (dependency classifier, package-manifest merger, folder copier);
* `libs/nx-plugin/local-npm-repo/src/executors/start-repo/executor.ts`
  (npm config snapshot/restore manager, verdaccio config generation,
  registry session orchestration).

JavaScript objects used as string-keyed maps are embedded as association
lists with first-match lookup; assigning to an existing key replaces the
value in place (keeping the key position, as JS object assignment does),
assigning to a fresh key appends (JS insertion order).  A value that may
be `undefined` is an `Option String`.
-/

namespace NxKuritkaj

/-- First-match lookup in an association list (JS property read). -/
def lookupA {α β : Type} [DecidableEq α] (k : α) : List (α × β) → Option β
  | [] => none
  | (k', v) :: rest => if k' = k then some v else lookupA k rest

/-- JS object assignment `o[k] = v`: replace the first entry with key `k`
in place, or append a fresh entry at the end. -/
def setA {α β : Type} [DecidableEq α] (k : α) (v : β) : List (α × β) → List (α × β)
  | [] => [(k, v)]
  | (k', v') :: rest => if k' = k then (k, v) :: rest else (k', v') :: setA k v rest

/-- Removal of a key (JS `delete o[k]` / npm config delete). -/
def delA {α β : Type} [DecidableEq α] (k : α) : List (α × β) → List (α × β)
  | [] => []
  | (k', v) :: rest => if k' = k then delA k rest else (k', v) :: delA k rest

/-!
## Package manifest merger
(`bundle-deps/src/executors/run/executor.ts`, `updateDependencies2`,
`addDependency`, `hasDependency`.)
-/

/-- A `package.json` after `updateDependencies2` has applied its default
empty containers (the object spread at the top of the function).  Version
strings may be `undefined` (e.g. an npm dependency whose version was not
found in the root manifest), hence `Option String` values. -/
structure PackageJson where
  dependencies : List (String × Option String)
  devDependencies : List (String × Option String)
  peerDependencies : List (String × Option String)
  optionalDependencies : List (String × Option String)
  bundleDependencies : List String
deriving Repr, DecidableEq

/-- `BundableLibDependency` from the executor.  `distPath` is
`dep.outputs[0]` (possibly `undefined` in JS, hence `Option`); `npmDeps`
is always constructed as the empty array. -/
structure BundableLibDependency where
  projectName : String
  packageName : String
  validPackageName : Bool
  isScoped : Bool
  distPath : Option String
  npmDeps : List String
deriving Repr, DecidableEq

/-- `NpmPackageDependency` from the executor. -/
structure NpmPackageDependency where
  packageName : String
  version : Option String
deriving Repr, DecidableEq

/-- `hasDependency(outputJson, dep)`: the package name occurs as a key in
any of dependencies, peerDependencies, optionalDependencies or
devDependencies. -/
def hasDependency (outputJson : PackageJson) (dep : String) : Bool :=
  (lookupA dep outputJson.dependencies).isSome ||
  (lookupA dep outputJson.peerDependencies).isSome ||
  (lookupA dep outputJson.optionalDependencies).isSome ||
  (lookupA dep outputJson.devDependencies).isSome

/-- `addDependency(npmDep, 'dependencies')`:
`packageJson[destination][npmDep.packageName] = npmDep.version`. -/
def addDependencyPlain (pj : PackageJson) (npmDep : NpmPackageDependency) : PackageJson :=
  { pj with dependencies := setA npmDep.packageName npmDep.version pj.dependencies }

/-- `addDependency(npmDep, 'bundledDependencies')`: push the name onto
`bundleDependencies`, then recurse with destination `'dependencies'`. -/
def addDependencyBundled (pj : PackageJson) (npmDep : NpmPackageDependency) : PackageJson :=
  addDependencyPlain
    { pj with bundleDependencies := pj.bundleDependencies ++ [npmDep.packageName] }
    npmDep

/-- One iteration of the `libDeps.forEach` loop in `updateDependencies2`:
skip if `hasDependency`, otherwise copy the lib's dist folder into the
publish `node_modules` and add it as a bundled dependency with the
`version` read back from the copied `package.json`.  `readVersion` maps a
package name to the `version` field of the manifest found at
`publishNodeModulesPath/<name>/package.json` after the copy (the version
of the lib's build output). -/
def mergeLibDep (readVersion : String → Option String) (pj : PackageJson)
    (dependency : BundableLibDependency) : PackageJson :=
  if hasDependency pj dependency.packageName then pj
  else
    addDependencyBundled pj
      { packageName := dependency.packageName
        version := readVersion dependency.packageName }

/-- One iteration of the `npmDeps.forEach` loop. -/
def mergeNpmDep (pj : PackageJson) (dependency : NpmPackageDependency) : PackageJson :=
  if hasDependency pj dependency.packageName then pj
  else addDependencyPlain pj dependency

/-- `updateDependencies2`: the manifest finally written to
`publishPackageJsonPath`.  `publishPackageJson` is the destination
manifest with the default empty containers already spread in; lib deps
are merged before npm deps, input order preserved. -/
def updateDependencies2 (readVersion : String → Option String)
    (publishPackageJson : PackageJson) (libDeps : List BundableLibDependency)
    (npmDeps : List NpmPackageDependency) : PackageJson :=
  npmDeps.foldl mergeNpmDep (libDeps.foldl (mergeLibDep readVersion) publishPackageJson)

/-!
## Dependency classifier
(`bundle-deps/src/executors/run/executor.ts`, `getProjectDependencies`,
`isLibNode`, `isNpmPackage`, `isScoped`.)
-/

/-- `\w` of the JS regex: ASCII letter, digit or underscore. -/
def isWordChar (c : Char) : Bool := c.isAlphanum || c = '_'

/-- `[a-z\d]` under the `i` flag: ASCII letter or digit. -/
def isScopeStartChar (c : Char) : Bool := c.isAlphanum

/-- A character of the class written as a hyphen-dot tail in the regex. -/
def isScopeTailChar (c : Char) : Bool := isWordChar c || c = '-' || c = '.'

/-- Remaining characters after the slash and its first character:
a possibly empty tail-character run. -/
def scopedPartTwo : List Char → Bool
  | c :: rest => isScopeStartChar c && rest.all isScopeTailChar
  | [] => false

/-- Characters of the scope part after its first one: a nonempty run of
tail characters, then a slash introducing the second part.  The tail
class excludes the slash, so matching is deterministic. -/
def scopedPartOneCont : List Char → Bool
  | [] => false
  | c :: rest => if c = '/' then scopedPartTwo rest
      else isScopeTailChar c && scopedPartOneCont rest

/-- `isScoped(name)`: the anchored, case-insensitive regex test from the
executor (at-sign, a start character, one or more tail characters, a
slash, a start character, then tail characters). -/
def isScoped (name : String) : Bool :=
  match name.toList with
  | '@' :: c0 :: c1 :: rest =>
      isScopeStartChar c0 && (if c1 = '/' then false
        else isScopeTailChar c1 && scopedPartOneCont rest)
  | _ => false

/-- JS `[...new Set(arr)]`: deduplicate keeping first-occurrence order. -/
def dedupFirst : List String → List String
  | [] => []
  | x :: rest => x :: dedupFirst (rest.filter (fun y => y ≠ x))
termination_by l => l.length
decreasing_by
  simp only [List.length_cons]
  exact Nat.lt_succ_of_le (List.length_filter_le _ _)

/-- The `type` tag of a `DependentBuildableProjectNode`'s graph node. -/
inductive DepNodeType where
  | lib
  | npm
deriving Repr, DecidableEq

/-- A `DependentBuildableProjectNode` as the classifier reads it:
`name` is `dep.name`, `nodeName` is `dep.node.name`, `nodePackageName`
is `dep.node.data.packageName` (meaningful for npm nodes), `outputs` is
`dep.outputs`. -/
structure DependentNode where
  name : String
  nodeName : String
  nodeType : DepNodeType
  nodePackageName : String
  outputs : List String
deriving Repr, DecidableEq

def isLibNode (dependency : DependentNode) : Bool := dependency.nodeType = DepNodeType.lib

def isNpmPackage (dependency : DependentNode) : Bool := dependency.nodeType = DepNodeType.npm

/-- The classification performed by `getProjectDependencies`.
`validate` embeds the external `validate-npm-package-name` package's
`validForNewPackages` check; `deps` is `dependencies ++
topLevelDependencies` from `calculateProjectDependencies`;
`projectHelperDeps` is `getProjectHelperNpmDeps(context.projectName)`
(external helper resolution); `rootNpmDeps` is the workspace root
manifest's merged dependency map.  Returns the `libDeps` and the
`npmDeps` with versions. -/
def getProjectDependencies (validate : String → Bool) (deps : List DependentNode)
    (projectHelperDeps : List String) (rootNpmDeps : List (String × String)) :
    List BundableLibDependency × List NpmPackageDependency :=
  let libDeps := ((deps.filter isLibNode).map (fun dep =>
      { projectName := dep.nodeName
        packageName := dep.name
        validPackageName := validate dep.name
        isScoped := isScoped dep.nodeName
        distPath := dep.outputs.head?
        npmDeps := [] : BundableLibDependency })).filter
      (fun dep => dep.validPackageName)
  let npmDeps := (deps.filter isNpmPackage).map (fun dep => dep.nodePackageName)
  let helperNmpDeps := (libDeps.map (fun d => d.npmDeps)).flatten
  let combinedNpmDeps := dedupFirst (npmDeps ++ projectHelperDeps ++ helperNmpDeps)
  let npmDepsWithVersions := combinedNpmDeps.map
    (fun d => { packageName := d, version := lookupA d rootNpmDeps : NpmPackageDependency })
  (libDeps, npmDepsWithVersions)

/-!
## Npm configuration snapshot/restore manager
(`local-npm-repo/src/executors/start-repo/executor.ts`, class
`NpmConfManager`.)

A configuration location (`--location` value) may be the JS `undefined`,
hence `Option String`.  `snapshot` embeds the in-memory configuration
loaded once by the constructor (`npmConf().config`), read by `get`;
`stored` embeds `originalValuesForLocations`; `ext` embeds the on-disk
npm configuration mutated through `execSync npm config set/delete`,
keyed by (location, key).
-/

/-- A configuration location; `none` is the JS `undefined`. -/
abbrev Loc := Option String

structure NpmConfManager where
  snapshot : List ((String × Loc) × String)
  stored : List (Loc × List (String × Option String))
  ext : List ((Loc × String) × String)
deriving Repr, DecidableEq

/-- `new NpmConfManager()`: loads the config snapshot; nothing captured
yet.  `ext` is whatever the on-disk npm configuration holds. -/
def mkNpmConfManager (snapshot : List ((String × Loc) × String))
    (ext : List ((Loc × String) × String)) : NpmConfManager :=
  { snapshot := snapshot, stored := [], ext := ext }

/-- `get(name, location)`: a read of the constructor-time snapshot
(`this.originalConf.get`). -/
def NpmConfManager.get (m : NpmConfManager) (name : String) (location : Loc) :
    Option String :=
  lookupA (name, location) m.snapshot

/-- `getForLocation(name, location)`: the pair (effective value,
scope-local value). -/
def NpmConfManager.getForLocation (m : NpmConfManager) (name : String)
    (location : String) : Option String × Option String :=
  (m.get name none, m.get name (some location))

/-- The mutating part of `getLocationOriginalValues`: create the empty
per-location map on first touch. -/
def NpmConfManager.ensureLocation (m : NpmConfManager) (location : Loc) :
    NpmConfManager :=
  if (lookupA location m.stored).isSome then m
  else { m with stored := m.stored ++ [(location, [])] }

/-- The per-location captured map (empty when the location was never
touched). -/
def NpmConfManager.locVals (m : NpmConfManager) (location : Loc) :
    List (String × Option String) :=
  (lookupA location m.stored).getD []

/-- `storeOriginalValue(name, location)`: first-write-wins capture of
`this.get(name, location)` into the per-location map. -/
def NpmConfManager.storeOriginalValue (m : NpmConfManager) (name : String)
    (location : Loc) : NpmConfManager :=
  let m1 := m.ensureLocation location
  let vals := m1.locVals location
  if (lookupA name vals).isSome then m1
  else { m1 with stored := setA location (vals ++ [(name, m.get name location)]) m1.stored }

/-- JS truthiness test `!value` for an optional string. -/
def falsy : Option String → Bool
  | none => true
  | some s => s.isEmpty

/-- `set(name, value, location)`: capture the original value, then either
`npm config delete` (falsy value) or `npm config set`. -/
def NpmConfManager.set (m : NpmConfManager) (name : String) (value : Option String)
    (location : Loc) : NpmConfManager :=
  let m1 := m.storeOriginalValue name location
  if falsy value then { m1 with ext := delA (location, name) m1.ext }
  else { m1 with ext := setA (location, name) (value.getD "") m1.ext }

/-- `restore(location)`: write every captured (name, value) of the
location back through `set`, in capture order. -/
def NpmConfManager.restore (m : NpmConfManager) (location : Loc) : NpmConfManager :=
  let m1 := m.ensureLocation location
  (m1.locVals location).foldl (fun acc nv => acc.set nv.1 nv.2 location) m1

/-- `restoreAll()`: restore every location that has a captured map, in
key order. -/
def NpmConfManager.restoreAll (m : NpmConfManager) : NpmConfManager :=
  (m.stored.map Prod.fst).foldl NpmConfManager.restore m

/-- One `set(key, value, location)` request, for reasoning about call
sequences on the manager. -/
structure SetOp where
  name : String
  value : Option String
  loc : Loc
deriving Repr, DecidableEq

def applySets (m : NpmConfManager) (ops : List SetOp) : NpmConfManager :=
  ops.foldl (fun acc op => acc.set op.name op.value op.loc) m

/-- The captured snapshot entry of a (key, location) pair, when any. -/
def storedValue (m : NpmConfManager) (location : Loc) (name : String) :
    Option (Option String) :=
  lookupA name (m.locVals location)

/-- What a `set` leaves in the on-disk configuration for its key: the
string for a truthy value, absence after a delete. -/
def extShape : Option String → Option String
  | none => none
  | some s => if s.isEmpty then none else some s

/-- Wellformedness of a manager's capture store: location keys are
unique and so are the names inside each location's map.  This holds of
every state reachable from the constructor. -/
def wfStored (m : NpmConfManager) : Prop :=
  (m.stored.map Prod.fst).Nodup ∧
  ∀ loc vals, lookupA loc m.stored = some vals → (vals.map Prod.fst).Nodup

/-!
## Verdaccio configuration generation
(`local-npm-repo/src/executors/start-repo/executor.ts`,
`createVerdaccioConfig`, `createScopedRegistryConfigItem`,
`npmRegistry`.)
-/

/-- `NpmConfItem`: an npm scope (or the default) with its registry
configuration key. -/
structure NpmConfItem where
  name : String
  key : String
deriving Repr, DecidableEq

/-- The unscoped default registry item. -/
def npmRegistry : NpmConfItem := { name := "npm", key := "registry" }

/-- `createScopedRegistryConfigItem(s)`. -/
def createScopedRegistryConfigItem (s : String) : NpmConfItem :=
  { name := s, key := "@" ++ s ++ ":registry" }

def mapNpmScopesToConfItems (npmScopes : List String) : List NpmConfItem :=
  npmScopes.map createScopedRegistryConfigItem

/-- An element of `npmRegistryConfig`: the scope/default item together
with the current effective and scope-local values of its registry key
(`conf.getForLocation`). -/
structure NpmRegistryConfigItem where
  name : String
  key : String
  value : Option String
  locationValue : Option String
deriving Repr, DecidableEq

/-- `getNpmRegistriesConfig` body after the scopes are computed: read
each item's current values from the manager. -/
def getNpmRegistriesConfig (conf : NpmConfManager) (location : String)
    (npmScopes : List String) : List NpmRegistryConfigItem :=
  (mapNpmScopesToConfItems npmScopes ++ [npmRegistry]).map
    (fun item =>
      { name := item.name
        key := item.key
        value := conf.get item.key none
        locationValue := conf.get item.key (some location) })

/-- An uplink entry value: the object literal with the upstream url. -/
structure VerdaccioUplink where
  url : String
deriving Repr, DecidableEq

/-- A package-routing rule value. -/
structure VerdaccioPackageConf where
  access : String
  publish : String
  unpublish : String
  proxy : String
deriving Repr, DecidableEq

/-- The glob pattern of an item's routing rule. -/
def verdaccioPackageKey (item : NpmRegistryConfigItem) : String :=
  if item.key = "registry" then "**" else "@" ++ item.name ++ "/*"

/-- The interesting parts of the generated verdaccio document; the other
entries of `createVerdaccioConfig`'s result are the fixed storage, log,
offline-publish and audit settings. -/
structure VerdaccioConfig where
  storage : String
  uplinks : List (String × VerdaccioUplink)
  packages : List (String × VerdaccioPackageConf)
  logType : String
  logFormat : String
  logLevel : String
  publishAllowOffline : Bool
  middlewaresAuditEnabled : Bool
deriving Repr, DecidableEq

/-- `createVerdaccioConfig(npmRegistryConfig)`: one uplink per item with a
truthy current value; one routing rule per item with a truthy current
value (the falsy check is performed in both reduces). -/
def createVerdaccioConfig (npmRegistryConfig : List NpmRegistryConfigItem) :
    VerdaccioConfig :=
  let verdaccioUplinks := npmRegistryConfig.foldl
    (fun acc item =>
      if falsy item.value then acc
      else setA item.name { url := item.value.getD "" } acc) []
  let verdaccioPackages := npmRegistryConfig.foldl
    (fun acc item =>
      if falsy item.value then acc
      else setA (verdaccioPackageKey item)
        { access := "$all", publish := "$all", unpublish := "$all",
          proxy := item.name } acc) []
  { storage := "../tmp/local-registry/storage"
    uplinks := verdaccioUplinks
    packages := verdaccioPackages
    logType := "stdout"
    logFormat := "pretty"
    logLevel := "debug"
    publishAllowOffline := true
    middlewaresAuditEnabled := true }

/-!
## Registry session orchestration
(`local-npm-repo/src/executors/start-repo/executor.ts`, `runExecutor`,
`startVerdaccio`, `processExitListener`.)
-/

/-- The terminal event of the forked verdaccio child process that settles
the `startVerdaccio` promise: nothing else settles it, so the promise
stays pending while the child runs.  A signal-terminated child exits with
a `null` code, hence `Option Int`. -/
inductive VerdaccioChildEvent where
  | error (message : String)
  | disconnect
  | exit (code : Option Int)
deriving Repr, DecidableEq

/-- How `startVerdaccio`'s promise settles on the child's terminal event:
`error` and `disconnect` reject, `exit` resolves exactly when the code is
strictly 0 and rejects otherwise. -/
def startVerdaccioSettle : VerdaccioChildEvent → Except VerdaccioChildEvent (Option Int)
  | .error e => .error (.error e)
  | .disconnect => .error .disconnect
  | .exit code => if code = some 0 then .ok code else .error (.exit code)

/-- The executor's structured result. -/
structure StartRepoResult where
  success : Bool
  port : Nat
deriving Repr, DecidableEq

/-- The tail of `runExecutor`: await `startVerdaccio`; a rejection is
caught and yields a failure result, a resolution yields success, both
with the configured port. -/
def runExecutorOutcome (port : Nat) (ev : VerdaccioChildEvent) : StartRepoResult :=
  match startVerdaccioSettle ev with
  | .error _ => { success := false, port := port }
  | .ok _ => { success := true, port := port }

/-- An observable step of the process-exit/signal handler. -/
inductive ExitStep where
  | killChild (signal : Option String)
  | restoreAttempt
  | logError (message : String)
deriving Repr, DecidableEq

/-- The `try ... catch (e) ... console.error(e)` around
`conf.restoreAll()`: a throwing restoration is logged; nothing escapes
the catch. -/
def catchRestoreError : Except String Unit → List ExitStep
  | .ok _ => [ExitStep.restoreAttempt]
  | .error e => [ExitStep.restoreAttempt, ExitStep.logError e]

/-- `processExitListener(signal)`: kill the child first when one is
running, then attempt restoration under the catch.  The result is the
handler's own outcome: the step trace, or an exception escaping it. -/
def processExitListener (childRunning : Bool) (signal : Option String)
    (restoreResult : Except String Unit) : Except String (List ExitStep) :=
  Except.ok ((if childRunning then [ExitStep.killChild signal] else []) ++
    catchRestoreError restoreResult)

/-!
## Folder copier
(`bundle-deps/src/executors/run/executor.ts`, `copyFolderSync`.)

A file tree: a file with its byte contents (embedded as a `String`), or
a directory with its named entries in `readdirSync` order.
-/

inductive FSTree where
  | file (contents : String)
  | dir (entries : List (String × FSTree))
deriving Repr

mutual
/-- `copyFolderSync(from, to)` on the tree at `from` and the optional
tree already at `to`: `readdirSync` on a file errors; `createDirectory`
over an existing file errors; otherwise the entries are copied into the
existing destination directory (created when absent), returning the
resulting destination tree. -/
def copyFolderSync : FSTree → Option FSTree → Except Unit FSTree
  | .file _, _ => Except.error ()
  | .dir _, some (.file _) => Except.error ()
  | .dir es, some (.dir ds) => Except.map FSTree.dir (copyEntries es ds)
  | .dir es, none => Except.map FSTree.dir (copyEntries es [])

/-- The `readdirSync(from).forEach` loop: a source file is copied over
the destination entry (`copyFileSync` overwrites a file, errors on a
directory); a source directory recurses into the destination entry of
the same name. -/
def copyEntries : List (String × FSTree) → List (String × FSTree) →
    Except Unit (List (String × FSTree))
  | [], ds => Except.ok ds
  | (n, FSTree.file c) :: rest, ds =>
    match lookupA n ds with
    | some (FSTree.dir _) => Except.error ()
    | _ => copyEntries rest (setA n (FSTree.file c) ds)
  | (n, FSTree.dir subEs) :: rest, ds =>
    match copyFolderSync (FSTree.dir subEs) (lookupA n ds) with
    | Except.error e => Except.error e
    | Except.ok sub => copyEntries rest (setA n sub ds)
end

mutual
/-- The relative paths of the files of a tree (a bare file is the empty
path). -/
def filePathsOf : FSTree → List (List String)
  | .file _ => [[]]
  | .dir es => entriesPaths es

def entriesPaths : List (String × FSTree) → List (List String)
  | [] => []
  | (n, t) :: rest => (filePathsOf t).map (fun p => n :: p) ++ entriesPaths rest
end

/-- The contents of the file at a relative path, when one is there. -/
def getFile : FSTree → List String → Option String
  | .file c, [] => some c
  | .file _, _ :: _ => none
  | .dir _, [] => none
  | .dir es, n :: p =>
    match lookupA n es with
    | some t => getFile t p
    | none => none

mutual
/-- A real file tree: names inside every directory are distinct. -/
def wfTree : FSTree → Bool
  | .file _ => true
  | .dir es => wfEntries es

def wfEntries : List (String × FSTree) → Bool
  | [] => true
  | (n, t) :: rest => (lookupA n rest).isNone && wfTree t && wfEntries rest
end

/-!
## Theorems
-/

theorem lookupA_setA_self {α β : Type} [DecidableEq α] (k : α) (v : β) (l : List (α × β)) :
    lookupA k (setA k v l) = some v := by
  induction l with
  | nil => simp [setA, lookupA]
  | cons e rest ih =>
    obtain ⟨k', v'⟩ := e
    by_cases h : k' = k
    · simp [setA, h, lookupA]
    · simp [setA, h, lookupA, ih]

theorem lookupA_setA_ne {α β : Type} [DecidableEq α] (k k' : α) (v : β) (l : List (α × β))
    (h : k' ≠ k) : lookupA k' (setA k v l) = lookupA k' l := by
  have hks : k ≠ k' := Ne.symm h
  induction l with
  | nil => simp [setA, lookupA, hks]
  | cons e rest ih =>
    obtain ⟨k0, v0⟩ := e
    by_cases h0 : k0 = k
    · subst h0
      simp [setA, lookupA, hks]
    · simp only [setA, h0, if_false, lookupA]
      by_cases h1 : k0 = k'
      · simp [h1]
      · simp [h1, ih]

theorem lookupA_delA_ne {α β : Type} [DecidableEq α] (k k' : α) (l : List (α × β))
    (h : k' ≠ k) : lookupA k' (delA k l) = lookupA k' l := by
  induction l with
  | nil => simp [delA, lookupA]
  | cons e rest ih =>
    obtain ⟨k0, v0⟩ := e
    by_cases h0 : k0 = k
    · subst h0
      have hks : ¬ k0 = k' := fun hh => h hh.symm
      simp [delA, lookupA, hks, ih]
    · by_cases h1 : k0 = k'
      · subst h1
        simp [delA, h0, lookupA, h]
      · simp [delA, h0, lookupA, h1, ih]

/-- `setA` at a key absent from the list appends the entry. -/
theorem setA_eq_append {α β : Type} [DecidableEq α] (k : α) (v : β) (l : List (α × β))
    (h : lookupA k l = none) : setA k v l = l ++ [(k, v)] := by
  induction l with
  | nil => simp [setA]
  | cons e rest ih =>
    obtain ⟨k', v'⟩ := e
    by_cases h0 : k' = k
    · simp [lookupA, h0] at h
    · simp [lookupA, h0] at h
      simp [setA, h0, ih h]

/-- Setting a key to the value it already has is the identity. -/
theorem setA_lookupA_self {α β : Type} [DecidableEq α] (k : α) (v : β) (l : List (α × β))
    (h : lookupA k l = some v) : setA k v l = l := by
  induction l with
  | nil => simp [lookupA] at h
  | cons e rest ih =>
    obtain ⟨k', v'⟩ := e
    by_cases h0 : k' = k
    · subst h0
      simp [lookupA] at h
      simp [setA, h]
    · simp [lookupA, h0] at h
      simp [setA, h0, ih h]

theorem hasDependency_of_dep_lookup (pj : PackageJson) (n : String) (v : Option String)
    (h : lookupA n pj.dependencies = some v) : hasDependency pj n = true := by
  simp [hasDependency, h]

theorem dep_lookup_of_not_hasDependency (pj : PackageJson) (n : String)
    (h : hasDependency pj n = false) : lookupA n pj.dependencies = none := by
  simp [hasDependency] at h
  exact Option.not_isSome_iff_eq_none.mp (by simp [h.1])

/-- A `mergeLibDep` step leaves every already-declared package name
untouched: version lookup, bundle count and the untouched containers. -/
theorem mergeLibDep_preserves (rv : String → Option String) (d : BundableLibDependency)
    (pj : PackageJson) (n : String) (h : hasDependency pj n = true) :
    hasDependency (mergeLibDep rv pj d) n = true ∧
    lookupA n (mergeLibDep rv pj d).dependencies = lookupA n pj.dependencies ∧
    (mergeLibDep rv pj d).bundleDependencies.count n = pj.bundleDependencies.count n ∧
    (mergeLibDep rv pj d).devDependencies = pj.devDependencies ∧
    (mergeLibDep rv pj d).peerDependencies = pj.peerDependencies ∧
    (mergeLibDep rv pj d).optionalDependencies = pj.optionalDependencies := by
  by_cases hd : hasDependency pj d.packageName
  · simp [mergeLibDep, hd, h]
  · have hne : n ≠ d.packageName := by
      intro he
      rw [he] at h
      exact hd h
    have hne' : d.packageName ≠ n := Ne.symm hne
    simp only [mergeLibDep, hd, Bool.false_eq_true, if_false,
      addDependencyBundled, addDependencyPlain]
    refine ⟨?_, ?_, ?_, trivial, trivial, trivial⟩
    · simp only [hasDependency] at h ⊢
      rw [lookupA_setA_ne _ _ _ _ hne]
      exact h
    · exact lookupA_setA_ne _ _ _ _ hne
    · simp [List.count_append, List.count_cons, List.count_nil, hne']

/-- A `mergeNpmDep` step likewise leaves every already-declared package
name untouched. -/
theorem mergeNpmDep_preserves (d : NpmPackageDependency)
    (pj : PackageJson) (n : String) (h : hasDependency pj n = true) :
    hasDependency (mergeNpmDep pj d) n = true ∧
    lookupA n (mergeNpmDep pj d).dependencies = lookupA n pj.dependencies ∧
    (mergeNpmDep pj d).bundleDependencies.count n = pj.bundleDependencies.count n ∧
    (mergeNpmDep pj d).devDependencies = pj.devDependencies ∧
    (mergeNpmDep pj d).peerDependencies = pj.peerDependencies ∧
    (mergeNpmDep pj d).optionalDependencies = pj.optionalDependencies := by
  by_cases hd : hasDependency pj d.packageName
  · simp [mergeNpmDep, hd, h]
  · have hne : n ≠ d.packageName := by
      intro he
      rw [he] at h
      exact hd h
    simp only [mergeNpmDep, hd, Bool.false_eq_true, if_false, addDependencyPlain]
    refine ⟨?_, ?_, trivial, trivial, trivial, trivial⟩
    · simp only [hasDependency] at h ⊢
      rw [lookupA_setA_ne _ _ _ _ hne]
      exact h
    · exact lookupA_setA_ne _ _ _ _ hne

theorem foldl_mergeLibDep_preserves (rv : String → Option String)
    (libDeps : List BundableLibDependency) (pj : PackageJson) (n : String)
    (h : hasDependency pj n = true) :
    hasDependency (libDeps.foldl (mergeLibDep rv) pj) n = true ∧
    lookupA n (libDeps.foldl (mergeLibDep rv) pj).dependencies = lookupA n pj.dependencies ∧
    (libDeps.foldl (mergeLibDep rv) pj).bundleDependencies.count n
      = pj.bundleDependencies.count n ∧
    (libDeps.foldl (mergeLibDep rv) pj).devDependencies = pj.devDependencies ∧
    (libDeps.foldl (mergeLibDep rv) pj).peerDependencies = pj.peerDependencies ∧
    (libDeps.foldl (mergeLibDep rv) pj).optionalDependencies = pj.optionalDependencies := by
  induction libDeps generalizing pj with
  | nil => exact ⟨h, rfl, rfl, rfl, rfl, rfl⟩
  | cons d rest ih =>
    obtain ⟨h1, h2, h3, h4, h5, h6⟩ := mergeLibDep_preserves rv d pj n h
    obtain ⟨g1, g2, g3, g4, g5, g6⟩ := ih (mergeLibDep rv pj d) h1
    exact ⟨g1, g2.trans h2, g3.trans h3, g4.trans h4, g5.trans h5, g6.trans h6⟩

theorem foldl_mergeNpmDep_preserves (npmDeps : List NpmPackageDependency)
    (pj : PackageJson) (n : String) (h : hasDependency pj n = true) :
    hasDependency (npmDeps.foldl mergeNpmDep pj) n = true ∧
    lookupA n (npmDeps.foldl mergeNpmDep pj).dependencies = lookupA n pj.dependencies ∧
    (npmDeps.foldl mergeNpmDep pj).bundleDependencies.count n
      = pj.bundleDependencies.count n ∧
    (npmDeps.foldl mergeNpmDep pj).devDependencies = pj.devDependencies ∧
    (npmDeps.foldl mergeNpmDep pj).peerDependencies = pj.peerDependencies ∧
    (npmDeps.foldl mergeNpmDep pj).optionalDependencies = pj.optionalDependencies := by
  induction npmDeps generalizing pj with
  | nil => exact ⟨h, rfl, rfl, rfl, rfl, rfl⟩
  | cons d rest ih =>
    obtain ⟨h1, h2, h3, h4, h5, h6⟩ := mergeNpmDep_preserves d pj n h
    obtain ⟨g1, g2, g3, g4, g5, g6⟩ := ih (mergeNpmDep pj d) h1
    exact ⟨g1, g2.trans h2, g3.trans h3, g4.trans h4, g5.trans h5, g6.trans h6⟩

/-- Bundle invariant, one `mergeLibDep` step: every name the run has
pushed onto `bundleDependencies` has its read-back version in
`dependencies`. -/
theorem mergeLibDep_bundle_inv (rv : String → Option String) (d : BundableLibDependency)
    (pj pj0 : PackageJson)
    (inv : ∀ n, n ∈ pj.bundleDependencies → n ∉ pj0.bundleDependencies →
      lookupA n pj.dependencies = some (rv n)) :
    ∀ n, n ∈ (mergeLibDep rv pj d).bundleDependencies → n ∉ pj0.bundleDependencies →
      lookupA n (mergeLibDep rv pj d).dependencies = some (rv n) := by
  by_cases hd : hasDependency pj d.packageName
  · simpa [mergeLibDep, hd] using inv
  · intro n hn hn0
    simp only [mergeLibDep, hd, Bool.false_eq_true, if_false,
      addDependencyBundled, addDependencyPlain] at hn ⊢
    by_cases he : n = d.packageName
    · subst he
      exact lookupA_setA_self _ _ _
    · rw [lookupA_setA_ne _ _ _ _ he]
      rcases List.mem_append.mp hn with hmem | hmem
      · exact inv n hmem hn0
      · simp at hmem
        exact absurd hmem he

/-- Bundle invariant, one `mergeNpmDep` step. -/
theorem mergeNpmDep_bundle_inv (rv : String → Option String) (d : NpmPackageDependency)
    (pj pj0 : PackageJson)
    (inv : ∀ n, n ∈ pj.bundleDependencies → n ∉ pj0.bundleDependencies →
      lookupA n pj.dependencies = some (rv n)) :
    ∀ n, n ∈ (mergeNpmDep pj d).bundleDependencies → n ∉ pj0.bundleDependencies →
      lookupA n (mergeNpmDep pj d).dependencies = some (rv n) := by
  by_cases hd : hasDependency pj d.packageName
  · simpa [mergeNpmDep, hd] using inv
  · intro n hn hn0
    simp only [mergeNpmDep, hd, Bool.false_eq_true, if_false, addDependencyPlain] at hn ⊢
    by_cases he : n = d.packageName
    · subst he
      have hcontra := hasDependency_of_dep_lookup pj d.packageName _
        (inv d.packageName hn hn0)
      exact absurd hcontra hd
    · rw [lookupA_setA_ne _ _ _ _ he]
      exact inv n hn hn0

theorem foldl_mergeLibDep_bundle_inv (rv : String → Option String)
    (libDeps : List BundableLibDependency) (pj pj0 : PackageJson)
    (inv : ∀ n, n ∈ pj.bundleDependencies → n ∉ pj0.bundleDependencies →
      lookupA n pj.dependencies = some (rv n)) :
    ∀ n, n ∈ (libDeps.foldl (mergeLibDep rv) pj).bundleDependencies →
      n ∉ pj0.bundleDependencies →
      lookupA n (libDeps.foldl (mergeLibDep rv) pj).dependencies = some (rv n) := by
  induction libDeps generalizing pj with
  | nil => exact inv
  | cons d rest ih => exact ih _ (mergeLibDep_bundle_inv rv d pj pj0 inv)

theorem foldl_mergeNpmDep_bundle_inv (rv : String → Option String)
    (npmDeps : List NpmPackageDependency) (pj pj0 : PackageJson)
    (inv : ∀ n, n ∈ pj.bundleDependencies → n ∉ pj0.bundleDependencies →
      lookupA n pj.dependencies = some (rv n)) :
    ∀ n, n ∈ (npmDeps.foldl mergeNpmDep pj).bundleDependencies →
      n ∉ pj0.bundleDependencies →
      lookupA n (npmDeps.foldl mergeNpmDep pj).dependencies = some (rv n) := by
  induction npmDeps generalizing pj with
  | nil => exact inv
  | cons d rest ih => exact ih _ (mergeNpmDep_bundle_inv rv d pj pj0 inv)

/-- C1: for every dependency processed by the manifest merger, if its
package name is already a key in any of dependencies, peerDependencies,
optionalDependencies or devDependencies of the destination manifest, then
`updateDependencies2` neither re-adds it (the name's multiplicity in
`bundleDependencies` is unchanged and peer/optional/devDependencies are
untouched) nor overwrites its existing version entry in `dependencies`. -/
theorem claim_C1_merger_skips_existing (rv : String → Option String)
    (pj0 : PackageJson) (libDeps : List BundableLibDependency)
    (npmDeps : List NpmPackageDependency) (n : String)
    (h : hasDependency pj0 n = true) :
    lookupA n (updateDependencies2 rv pj0 libDeps npmDeps).dependencies
      = lookupA n pj0.dependencies ∧
    (updateDependencies2 rv pj0 libDeps npmDeps).bundleDependencies.count n
      = pj0.bundleDependencies.count n ∧
    (updateDependencies2 rv pj0 libDeps npmDeps).peerDependencies = pj0.peerDependencies ∧
    (updateDependencies2 rv pj0 libDeps npmDeps).optionalDependencies
      = pj0.optionalDependencies ∧
    (updateDependencies2 rv pj0 libDeps npmDeps).devDependencies = pj0.devDependencies := by
  obtain ⟨h1, h2, h3, h4, h5, h6⟩ := foldl_mergeLibDep_preserves rv libDeps pj0 n h
  obtain ⟨g1, g2, g3, g4, g5, g6⟩ :=
    foldl_mergeNpmDep_preserves npmDeps (libDeps.foldl (mergeLibDep rv) pj0) n h1
  exact ⟨g2.trans h2, g3.trans h3, g5.trans h5, g6.trans h6, g4.trans h4⟩

theorem claim_C1_merger_skips_existing_witness :
    hasDependency ⟨[("lodash", some "4.17.0")], [], [], [], []⟩ "lodash" = true ∧
    (lookupA "lodash" (updateDependencies2 (fun _ => none)
        ⟨[("lodash", some "4.17.0")], [], [], [], []⟩ []
        [⟨"lodash", some "4.17.21"⟩]).dependencies
      = lookupA "lodash" (⟨[("lodash", some "4.17.0")], [], [], [], []⟩ :
          PackageJson).dependencies ∧
     (updateDependencies2 (fun _ => none)
        ⟨[("lodash", some "4.17.0")], [], [], [], []⟩ []
        [⟨"lodash", some "4.17.21"⟩]).bundleDependencies.count "lodash"
      = (⟨[("lodash", some "4.17.0")], [], [], [], []⟩ :
          PackageJson).bundleDependencies.count "lodash" ∧
     (updateDependencies2 (fun _ => none)
        ⟨[("lodash", some "4.17.0")], [], [], [], []⟩ []
        [⟨"lodash", some "4.17.21"⟩]).peerDependencies
      = (⟨[("lodash", some "4.17.0")], [], [], [], []⟩ : PackageJson).peerDependencies ∧
     (updateDependencies2 (fun _ => none)
        ⟨[("lodash", some "4.17.0")], [], [], [], []⟩ []
        [⟨"lodash", some "4.17.21"⟩]).optionalDependencies
      = (⟨[("lodash", some "4.17.0")], [], [], [], []⟩ :
          PackageJson).optionalDependencies ∧
     (updateDependencies2 (fun _ => none)
        ⟨[("lodash", some "4.17.0")], [], [], [], []⟩ []
        [⟨"lodash", some "4.17.21"⟩]).devDependencies
      = (⟨[("lodash", some "4.17.0")], [], [], [], []⟩ : PackageJson).devDependencies) :=
  ⟨by decide,
   claim_C1_merger_skips_existing (fun _ => none)
     ⟨[("lodash", some "4.17.0")], [], [], [], []⟩ []
     [⟨"lodash", some "4.17.21"⟩] "lodash" (by decide)⟩

/-- C3 as stated is false: a `bundleDependencies` entry already present in
the destination manifest before merging is not added to `dependencies`.
Concretely, a destination manifest with bundleDependencies `[leftpad]`
and empty dependencies passes through the merger unchanged. -/
theorem claim_C3_counterexample :
    "leftpad" ∈ (updateDependencies2 (fun _ => none)
        ⟨[], [], [], [], ["leftpad"]⟩ [] []).bundleDependencies ∧
    lookupA "leftpad" (updateDependencies2 (fun _ => none)
        ⟨[], [], [], [], ["leftpad"]⟩ [] []).dependencies = none := by
  constructor
  · simp [updateDependencies2]
  · rfl

/-- C3 (amended): after a successful merger run, every package name the
run itself added to `bundleDependencies` (i.e. not already listed in the
destination manifest's `bundleDependencies`) also appears as a key in
`dependencies`, with exactly the version read back from the bundled
(copied) package's manifest. -/
theorem claim_C3_bundle_in_dependencies (rv : String → Option String)
    (pj0 : PackageJson) (libDeps : List BundableLibDependency)
    (npmDeps : List NpmPackageDependency) (n : String)
    (hn : n ∈ (updateDependencies2 rv pj0 libDeps npmDeps).bundleDependencies)
    (hn0 : n ∉ pj0.bundleDependencies) :
    lookupA n (updateDependencies2 rv pj0 libDeps npmDeps).dependencies
      = some (rv n) :=
  foldl_mergeNpmDep_bundle_inv rv npmDeps _ pj0
    (foldl_mergeLibDep_bundle_inv rv libDeps pj0 pj0
      (fun _ hm hm0 => absurd hm hm0)) n hn hn0

theorem claim_C3_bundle_in_dependencies_witness :
    "@acme/ui" ∈ (updateDependencies2 (fun _ => some "1.0.0")
        ⟨[], [], [], [], []⟩
        [⟨"ui", "@acme/ui", true, true, some "dist/libs/ui", []⟩]
        []).bundleDependencies ∧
    "@acme/ui" ∉ (⟨[], [], [], [], []⟩ : PackageJson).bundleDependencies ∧
    lookupA "@acme/ui" (updateDependencies2 (fun _ => some "1.0.0")
        ⟨[], [], [], [], []⟩
        [⟨"ui", "@acme/ui", true, true, some "dist/libs/ui", []⟩]
        []).dependencies = some (some "1.0.0") :=
  ⟨by decide, by decide,
   claim_C3_bundle_in_dependencies (fun _ => some "1.0.0")
     ⟨[], [], [], [], []⟩
     [⟨"ui", "@acme/ui", true, true, some "dist/libs/ui", []⟩]
     [] "@acme/ui" (by decide) (by decide)⟩

/-- A `mergeNpmDep` step never touches `bundleDependencies`. -/
theorem mergeNpmDep_bundle_eq (pj : PackageJson) (d : NpmPackageDependency) :
    (mergeNpmDep pj d).bundleDependencies = pj.bundleDependencies := by
  by_cases hd : hasDependency pj d.packageName
  · simp [mergeNpmDep, hd]
  · simp [mergeNpmDep, hd, addDependencyPlain]

theorem foldl_mergeNpmDep_bundle_eq (npmDeps : List NpmPackageDependency)
    (pj : PackageJson) :
    (npmDeps.foldl mergeNpmDep pj).bundleDependencies = pj.bundleDependencies := by
  induction npmDeps generalizing pj with
  | nil => rfl
  | cons d rest ih => exact (ih (mergeNpmDep pj d)).trans (mergeNpmDep_bundle_eq pj d)

/-- A `mergeLibDep` step only ever appends the processed lib's own
package name to `bundleDependencies`. -/
theorem mergeLibDep_bundle_mem (rv : String → Option String) (pj : PackageJson)
    (d : BundableLibDependency) (n : String)
    (hn : n ∈ (mergeLibDep rv pj d).bundleDependencies) :
    n ∈ pj.bundleDependencies ∨ n = d.packageName := by
  by_cases hd : hasDependency pj d.packageName
  · simp [mergeLibDep, hd] at hn
    exact Or.inl hn
  · simp only [mergeLibDep, hd, Bool.false_eq_true, if_false,
      addDependencyBundled, addDependencyPlain] at hn
    rcases List.mem_append.mp hn with hmem | hmem
    · exact Or.inl hmem
    · simp at hmem
      exact Or.inr hmem

theorem foldl_mergeLibDep_bundle_mem (rv : String → Option String)
    (libDeps : List BundableLibDependency) (pj : PackageJson) (n : String)
    (hn : n ∈ (libDeps.foldl (mergeLibDep rv) pj).bundleDependencies) :
    n ∈ pj.bundleDependencies ∨ n ∈ libDeps.map (fun d => d.packageName) := by
  induction libDeps generalizing pj with
  | nil => exact Or.inl hn
  | cons d rest ih =>
    rcases ih (mergeLibDep rv pj d) hn with hmem | hmem
    · rcases mergeLibDep_bundle_mem rv pj d n hmem with h0 | h0
      · exact Or.inl h0
      · exact Or.inr (by simp [h0])
    · exact Or.inr (by simp [List.mem_map] at hmem ⊢; exact Or.inr hmem)

/-- Every lib dependency kept by the classifier has a package name that
passes the npm-style validation function. -/
theorem classifier_libDeps_valid (validate : String → Bool) (deps : List DependentNode)
    (projectHelperDeps : List String) (rootNpmDeps : List (String × String))
    (d : BundableLibDependency)
    (hd : d ∈ (getProjectDependencies validate deps projectHelperDeps rootNpmDeps).1) :
    validate d.packageName = true := by
  simp only [getProjectDependencies] at hd
  have hval := (List.mem_filter.mp hd).2
  obtain ⟨dep, _, hmk⟩ := List.mem_map.mp (List.mem_filter.mp hd).1
  rw [← hmk] at hval ⊢
  simpa using hval

/-- Merging lib deps none of which is named `n` never changes the
multiplicity of `n` in `bundleDependencies`. -/
theorem foldl_mergeLibDep_bundle_count_ne (rv : String → Option String)
    (libDeps : List BundableLibDependency) (pj : PackageJson) (n : String)
    (h : ∀ d ∈ libDeps, d.packageName ≠ n) :
    (libDeps.foldl (mergeLibDep rv) pj).bundleDependencies.count n
      = pj.bundleDependencies.count n := by
  induction libDeps generalizing pj with
  | nil => rfl
  | cons d rest ih =>
    rw [List.foldl_cons, ih _ (fun d' hd' => h d' (List.mem_cons_of_mem _ hd'))]
    by_cases hd : hasDependency pj d.packageName
    · simp [mergeLibDep, hd]
    · have hne : d.packageName ≠ n := h d (List.mem_cons_self _ _)
      simp [mergeLibDep, hd, addDependencyBundled, addDependencyPlain,
        List.count_append, List.count_cons, List.count_nil, hne]

/-- C7: a library dependency whose package name fails npm-style package
name validation is excluded from the classifier's lib-deps output, and
its name is never added to the merged manifest's `bundleDependencies`:
the name's multiplicity there is unchanged by the whole pipeline, so
when the destination manifest did not already list it, it does not
appear at all. -/
theorem claim_C7_invalid_name_never_bundled (validate : String → Bool)
    (deps : List DependentNode) (projectHelperDeps : List String)
    (rootNpmDeps : List (String × String)) (rv : String → Option String)
    (pj0 : PackageJson) (npmDeps : List NpmPackageDependency) (n : String)
    (hinvalid : validate n = false) :
    (∀ d ∈ (getProjectDependencies validate deps projectHelperDeps rootNpmDeps).1,
      d.packageName ≠ n) ∧
    (updateDependencies2 rv pj0
      (getProjectDependencies validate deps projectHelperDeps rootNpmDeps).1
      npmDeps).bundleDependencies.count n = pj0.bundleDependencies.count n ∧
    (n ∉ pj0.bundleDependencies →
      n ∉ (updateDependencies2 rv pj0
        (getProjectDependencies validate deps projectHelperDeps rootNpmDeps).1
        npmDeps).bundleDependencies) := by
  have hnotmem : ∀ d ∈ (getProjectDependencies validate deps projectHelperDeps
      rootNpmDeps).1, d.packageName ≠ n := by
    intro d hd he
    have hval := classifier_libDeps_valid validate deps projectHelperDeps rootNpmDeps d hd
    rw [he, hinvalid] at hval
    exact Bool.false_ne_true hval
  have hcount : (updateDependencies2 rv pj0
      (getProjectDependencies validate deps projectHelperDeps rootNpmDeps).1
      npmDeps).bundleDependencies.count n = pj0.bundleDependencies.count n := by
    unfold updateDependencies2
    rw [foldl_mergeNpmDep_bundle_eq]
    exact foldl_mergeLibDep_bundle_count_ne rv _ pj0 n hnotmem
  refine ⟨hnotmem, hcount, ?_⟩
  intro h0 hn
  have hz : pj0.bundleDependencies.count n = 0 := List.count_eq_zero.mpr h0
  exact (List.count_eq_zero.mp (hcount.trans hz)) hn

theorem claim_C7_invalid_name_never_bundled_witness :
    (fun s => s ≠ "BadName") "BadName" = false ∧
    ((∀ d ∈ (getProjectDependencies (fun s => s ≠ "BadName")
        [⟨"BadName", "bad-proj", DepNodeType.lib, "", ["dist/bad"]⟩,
         ⟨"goodname", "good-proj", DepNodeType.lib, "", ["dist/good"]⟩]
        [] []).1, d.packageName ≠ "BadName") ∧
     (updateDependencies2 (fun _ => some "1.0.0") ⟨[], [], [], [], []⟩
        (getProjectDependencies (fun s => s ≠ "BadName")
          [⟨"BadName", "bad-proj", DepNodeType.lib, "", ["dist/bad"]⟩,
           ⟨"goodname", "good-proj", DepNodeType.lib, "", ["dist/good"]⟩]
          [] []).1
        []).bundleDependencies.count "BadName"
      = (⟨[], [], [], [], []⟩ : PackageJson).bundleDependencies.count "BadName" ∧
     ("BadName" ∉ (⟨[], [], [], [], []⟩ : PackageJson).bundleDependencies →
      "BadName" ∉ (updateDependencies2 (fun _ => some "1.0.0") ⟨[], [], [], [], []⟩
        (getProjectDependencies (fun s => s ≠ "BadName")
          [⟨"BadName", "bad-proj", DepNodeType.lib, "", ["dist/bad"]⟩,
           ⟨"goodname", "good-proj", DepNodeType.lib, "", ["dist/good"]⟩]
          [] []).1
        []).bundleDependencies)) :=
  ⟨by decide,
   claim_C7_invalid_name_never_bundled (fun s => s ≠ "BadName")
     [⟨"BadName", "bad-proj", DepNodeType.lib, "", ["dist/bad"]⟩,
      ⟨"goodname", "good-proj", DepNodeType.lib, "", ["dist/good"]⟩]
     [] [] (fun _ => some "1.0.0") ⟨[], [], [], [], []⟩ [] "BadName"
     (by decide)⟩

theorem lookupA_append_left {α β : Type} [DecidableEq α] (k : α) (v : β)
    (l1 l2 : List (α × β)) (h : lookupA k l1 = some v) :
    lookupA k (l1 ++ l2) = some v := by
  induction l1 with
  | nil => simp [lookupA] at h
  | cons e rest ih =>
    obtain ⟨k', v'⟩ := e
    by_cases h0 : k' = k
    · simp [lookupA, h0] at h ⊢
      exact h
    · simp [lookupA, h0] at h ⊢
      exact ih h

theorem lookupA_append_right {α β : Type} [DecidableEq α] (k : α)
    (l1 l2 : List (α × β)) (h : lookupA k l1 = none) :
    lookupA k (l1 ++ l2) = lookupA k l2 := by
  induction l1 with
  | nil => simp
  | cons e rest ih =>
    obtain ⟨k', v'⟩ := e
    by_cases h0 : k' = k
    · simp [lookupA, h0] at h
    · simp [lookupA, h0] at h ⊢
      exact ih h

theorem lookupA_eq_none_iff {α β : Type} [DecidableEq α] (k : α) (l : List (α × β)) :
    lookupA k l = none ↔ k ∉ l.map Prod.fst := by
  induction l with
  | nil => simp [lookupA]
  | cons e rest ih =>
    obtain ⟨k', v'⟩ := e
    by_cases h0 : k' = k
    · simp [lookupA, h0]
    · simp only [lookupA, h0, if_false, List.map_cons, List.mem_cons, ih]
      constructor
      · intro hni
        exact fun hor => hor.elim (fun hh => h0 hh.symm) hni
      · intro hni
        exact fun hmem => hni (Or.inr hmem)

theorem lookupA_delA_self {α β : Type} [DecidableEq α] (k : α) (l : List (α × β)) :
    lookupA k (delA k l) = none := by
  induction l with
  | nil => simp [delA, lookupA]
  | cons e rest ih =>
    obtain ⟨k', v'⟩ := e
    by_cases h0 : k' = k
    · simp [delA, h0, ih]
    · simp [delA, h0, lookupA, ih]

theorem delA_of_lookupA_none {α β : Type} [DecidableEq α] (k : α) (l : List (α × β))
    (h : lookupA k l = none) : delA k l = l := by
  induction l with
  | nil => rfl
  | cons e rest ih =>
    obtain ⟨k', v'⟩ := e
    by_cases h0 : k' = k
    · simp [lookupA, h0] at h
    · simp [lookupA, h0] at h
      simp [delA, h0, ih h]

/-- `setA` at a present key keeps the key list unchanged. -/
theorem map_fst_setA_of_isSome {α β : Type} [DecidableEq α] (k : α) (v : β)
    (l : List (α × β)) (h : (lookupA k l).isSome) :
    (setA k v l).map Prod.fst = l.map Prod.fst := by
  induction l with
  | nil => simp [lookupA] at h
  | cons e rest ih =>
    obtain ⟨k', v'⟩ := e
    by_cases h0 : k' = k
    · simp [setA, h0]
    · simp [lookupA, h0] at h
      simp [setA, h0, ih h]

theorem ensureLocation_snapshot (m : NpmConfManager) (loc : Loc) :
    (m.ensureLocation loc).snapshot = m.snapshot := by
  unfold NpmConfManager.ensureLocation
  split <;> rfl

theorem ensureLocation_ext (m : NpmConfManager) (loc : Loc) :
    (m.ensureLocation loc).ext = m.ext := by
  unfold NpmConfManager.ensureLocation
  split <;> rfl

theorem ensureLocation_of_isSome (m : NpmConfManager) (loc : Loc)
    (h : (lookupA loc m.stored).isSome) : m.ensureLocation loc = m := by
  unfold NpmConfManager.ensureLocation
  simp [h]

theorem ensureLocation_locVals (m : NpmConfManager) (loc loc' : Loc) :
    (m.ensureLocation loc).locVals loc' = m.locVals loc' := by
  unfold NpmConfManager.ensureLocation NpmConfManager.locVals
  by_cases h : (lookupA loc m.stored).isSome
  · simp [h]
  · simp only [h, Bool.false_eq_true, if_false]
    rcases ho : lookupA loc' m.stored with _ | vals
    · rw [lookupA_append_right _ _ _ ho]
      by_cases he : loc = loc'
      · subst he
        simp [lookupA]
      · simp [lookupA, he]
    · rw [lookupA_append_left _ _ _ _ ho]

theorem ensureLocation_isSome (m : NpmConfManager) (loc : Loc) :
    (lookupA loc (m.ensureLocation loc).stored).isSome := by
  unfold NpmConfManager.ensureLocation
  by_cases h : (lookupA loc m.stored).isSome
  · simp [h]
  · simp only [h, Bool.false_eq_true, if_false]
    rcases ho : lookupA loc m.stored with _ | vals
    · rw [lookupA_append_right _ _ _ ho]
      simp [lookupA]
    · simp [ho] at h

theorem storeOriginalValue_snapshot (m : NpmConfManager) (n : String) (loc : Loc) :
    (m.storeOriginalValue n loc).snapshot = m.snapshot := by
  unfold NpmConfManager.storeOriginalValue
  dsimp only
  split
  · exact ensureLocation_snapshot m loc
  · exact ensureLocation_snapshot m loc

theorem storeOriginalValue_ext (m : NpmConfManager) (n : String) (loc : Loc) :
    (m.storeOriginalValue n loc).ext = m.ext := by
  unfold NpmConfManager.storeOriginalValue
  dsimp only
  split
  · exact ensureLocation_ext m loc
  · exact ensureLocation_ext m loc

theorem set_snapshot (m : NpmConfManager) (n : String) (v : Option String) (loc : Loc) :
    (m.set n v loc).snapshot = m.snapshot := by
  unfold NpmConfManager.set
  dsimp only
  split <;> exact storeOriginalValue_snapshot m n loc

theorem set_stored (m : NpmConfManager) (n : String) (v : Option String) (loc : Loc) :
    (m.set n v loc).stored = (m.storeOriginalValue n loc).stored := by
  unfold NpmConfManager.set
  dsimp only
  split <;> rfl

/-- An already-captured pair makes `storeOriginalValue` a no-op (beyond
materialising the location's empty map). -/
theorem storeOriginalValue_of_isSome (m : NpmConfManager) (n : String) (loc : Loc)
    (h : (storedValue m loc n).isSome) :
    m.storeOriginalValue n loc = m.ensureLocation loc := by
  unfold NpmConfManager.storeOriginalValue
  dsimp only
  rw [ensureLocation_locVals m loc loc]
  unfold storedValue at h
  simp [h]

/-- First capture: the pair's entry becomes the snapshot's scope-local
value, appended to the location's map. -/
theorem storeOriginalValue_locVals_self (m : NpmConfManager) (n : String) (loc : Loc)
    (h : storedValue m loc n = none) :
    (m.storeOriginalValue n loc).locVals loc
      = m.locVals loc ++ [(n, m.get n loc)] := by
  unfold NpmConfManager.storeOriginalValue
  dsimp only
  rw [ensureLocation_locVals m loc loc]
  unfold storedValue at h
  simp only [h, Option.isSome_none, Bool.false_eq_true, if_false]
  unfold NpmConfManager.locVals
  dsimp only
  simp [lookupA_setA_self]

theorem storeOriginalValue_locVals_other (m : NpmConfManager) (n : String)
    (loc loc' : Loc) (hne : loc' ≠ loc) :
    (m.storeOriginalValue n loc).locVals loc' = m.locVals loc' := by
  unfold NpmConfManager.storeOriginalValue
  dsimp only
  rw [ensureLocation_locVals m loc loc]
  split
  · exact ensureLocation_locVals m loc loc'
  · have hcar := ensureLocation_locVals m loc loc'
    unfold NpmConfManager.locVals at hcar ⊢
    dsimp only
    rw [lookupA_setA_ne _ _ _ _ hne]
    exact hcar

/-- First `set` on a pair records the snapshot's scope-local value. -/
theorem set_storedValue_first (m : NpmConfManager) (n : String) (v : Option String)
    (loc : Loc) (h : storedValue m loc n = none) :
    storedValue (m.set n v loc) loc n = some (m.get n loc) := by
  unfold storedValue NpmConfManager.locVals
  rw [set_stored]
  have hv := storeOriginalValue_locVals_self m n loc h
  unfold NpmConfManager.locVals at hv
  rw [hv]
  unfold storedValue NpmConfManager.locVals at h
  rw [lookupA_append_right _ _ _ h]
  simp [lookupA]

/-- A captured entry survives any further `set`, on any pair. -/
theorem set_storedValue_preserved (m : NpmConfManager) (n n' : String)
    (v : Option String) (loc loc' : Loc) (w : Option String)
    (h : storedValue m loc' n' = some w) :
    storedValue (m.set n v loc) loc' n' = some w := by
  unfold storedValue
  rw [show (m.set n v loc).locVals loc'
      = ((m.set n v loc).locVals loc') from rfl]
  have hst : (m.set n v loc).locVals loc'
      = (m.storeOriginalValue n loc).locVals loc' := by
    unfold NpmConfManager.locVals
    rw [set_stored]
  rw [hst]
  by_cases hl : loc' = loc
  · subst hl
    by_cases hcap : (storedValue m loc' n).isSome
    · rw [storeOriginalValue_of_isSome m n loc' hcap]
      rw [ensureLocation_locVals]
      exact h
    · have hnone : storedValue m loc' n = none :=
        Option.not_isSome_iff_eq_none.mp (by simpa using hcap)
      rw [storeOriginalValue_locVals_self m n loc' hnone]
      unfold storedValue at h
      exact lookupA_append_left _ _ _ _ h
  · rw [storeOriginalValue_locVals_other m n loc loc' hl]
    exact h

/-- A `set` on one pair does not create a capture for another pair. -/
theorem set_storedValue_other (m : NpmConfManager) (n n' : String)
    (v : Option String) (loc loc' : Loc) (hne : n' ≠ n ∨ loc' ≠ loc) :
    storedValue (m.set n v loc) loc' n' = storedValue m loc' n' := by
  unfold storedValue
  have hst : (m.set n v loc).locVals loc'
      = (m.storeOriginalValue n loc).locVals loc' := by
    unfold NpmConfManager.locVals
    rw [set_stored]
  rw [hst]
  by_cases hl : loc' = loc
  · subst hl
    have hn : n' ≠ n := by
      rcases hne with h | h
      · exact h
      · exact absurd rfl h
    by_cases hcap : (storedValue m loc' n).isSome
    · rw [storeOriginalValue_of_isSome m n loc' hcap, ensureLocation_locVals]
    · have hnone : storedValue m loc' n = none :=
        Option.not_isSome_iff_eq_none.mp (by simpa using hcap)
      rw [storeOriginalValue_locVals_self m n loc' hnone]
      rcases hv : lookupA n' (m.locVals loc') with _ | w
      · rw [lookupA_append_right _ _ _ hv]
        have hnn : ¬ n = n' := fun hh => hn hh.symm
        simp [lookupA, hnn]
      · rw [lookupA_append_left _ _ _ _ hv]
  · rw [storeOriginalValue_locVals_other m n loc loc' hl]

/-- The on-disk value a `set` leaves at its own key. -/
theorem set_ext_self (m : NpmConfManager) (n : String) (v : Option String) (loc : Loc) :
    lookupA (loc, n) (m.set n v loc).ext = extShape v := by
  unfold NpmConfManager.set
  dsimp only
  rcases v with _ | s
  · simp only [falsy, if_true]
    rw [storeOriginalValue_ext]
    exact (lookupA_delA_self _ _).trans rfl
  · by_cases hs : s.isEmpty
    · simp only [falsy, hs, if_true]
      rw [storeOriginalValue_ext]
      rw [lookupA_delA_self]
      simp [extShape, hs]
    · simp only [falsy, hs, Bool.false_eq_true, if_false]
      rw [storeOriginalValue_ext]
      rw [lookupA_setA_self]
      simp [extShape, hs]

/-- A `set` leaves every other key of the on-disk configuration alone. -/
theorem set_ext_ne (m : NpmConfManager) (n n' : String) (v : Option String)
    (loc loc' : Loc) (hne : (loc', n') ≠ (loc, n)) :
    lookupA (loc', n') (m.set n v loc).ext = lookupA (loc', n') m.ext := by
  unfold NpmConfManager.set
  dsimp only
  split
  · rw [show ({ m.storeOriginalValue n loc with
        ext := delA (loc, n) (m.storeOriginalValue n loc).ext } :
        NpmConfManager).ext = delA (loc, n) (m.storeOriginalValue n loc).ext from rfl]
    rw [lookupA_delA_ne _ _ _ hne, storeOriginalValue_ext]
  · rw [show ({ m.storeOriginalValue n loc with
        ext := setA (loc, n) (v.getD "") (m.storeOriginalValue n loc).ext } :
        NpmConfManager).ext
      = setA (loc, n) (v.getD "") (m.storeOriginalValue n loc).ext from rfl]
    rw [lookupA_setA_ne _ _ _ _ hne, storeOriginalValue_ext]

theorem applySets_snapshot (m : NpmConfManager) (ops : List SetOp) :
    (applySets m ops).snapshot = m.snapshot := by
  induction ops generalizing m with
  | nil => rfl
  | cons op rest ih =>
    exact (ih (m.set op.name op.value op.loc)).trans (set_snapshot m _ _ _)

theorem applySets_get (m : NpmConfManager) (ops : List SetOp) (n : String) (loc : Loc) :
    (applySets m ops).get n loc = m.get n loc := by
  unfold NpmConfManager.get
  rw [applySets_snapshot]

theorem applySets_storedValue_preserved (m : NpmConfManager) (ops : List SetOp)
    (n : String) (loc : Loc) (w : Option String)
    (h : storedValue m loc n = some w) :
    storedValue (applySets m ops) loc n = some w := by
  induction ops generalizing m with
  | nil => exact h
  | cons op rest ih =>
    exact ih _ (set_storedValue_preserved m op.name n op.value op.loc loc w h)

/-- If a sequence of `set` calls contains at least one call for a pair
that was uncaptured at the start, the pair ends captured with the
snapshot's scope-local value (the value read at the first such call). -/
theorem applySets_capture (m : NpmConfManager) (ops : List SetOp) (n : String)
    (loc : Loc) (v : Option String) (hmem : SetOp.mk n v loc ∈ ops)
    (h : storedValue m loc n = none) :
    storedValue (applySets m ops) loc n = some (m.get n loc) := by
  induction ops generalizing m with
  | nil => exact absurd hmem (List.not_mem_nil _)
  | cons op rest ih =>
    by_cases htgt : op.name = n ∧ op.loc = loc
    · have hcap : storedValue (m.set op.name op.value op.loc) loc n
          = some (m.get n loc) := by
        rw [htgt.1, htgt.2]
        exact set_storedValue_first m n op.value loc h
      exact applySets_storedValue_preserved _ rest n loc _ hcap
    · have hne : n ≠ op.name ∨ loc ≠ op.loc := by
        by_cases h1 : op.name = n
        · exact Or.inr (fun hh => htgt ⟨h1, hh.symm⟩)
        · exact Or.inl (fun hh => h1 hh.symm)
      have hmem' : SetOp.mk n v loc ∈ rest := by
        rcases List.mem_cons.mp hmem with he | hm
        · exfalso
          apply htgt
          rw [← he]
          exact ⟨rfl, rfl⟩
        · exact hm
      have h' : storedValue (m.set op.name op.value op.loc) loc n = none := by
        rw [set_storedValue_other m op.name n op.value op.loc loc hne]
        exact h
      have := ih (m.set op.name op.value op.loc) hmem' h'
      rwa [show (m.set op.name op.value op.loc).get n loc = m.get n loc by
        unfold NpmConfManager.get
        rw [set_snapshot]] at this

theorem lookupA_isSome_of_mem_keys {α β : Type} [DecidableEq α] (k : α)
    (l : List (α × β)) (h : k ∈ l.map Prod.fst) : (lookupA k l).isSome := by
  rcases ho : lookupA k l with _ | v
  · exact absurd ((lookupA_eq_none_iff k l).mp ho) (fun hn => hn h)
  · rfl

theorem locVals_lookup_of_isSome (m : NpmConfManager) (loc : Loc)
    (h : (lookupA loc m.stored).isSome) :
    lookupA loc m.stored = some (m.locVals loc) := by
  unfold NpmConfManager.locVals
  rcases ho : lookupA loc m.stored with _ | vals
  · rw [ho] at h
    simp at h
  · rfl

theorem storedValue_isSome_loc (m : NpmConfManager) (loc : Loc) (n : String)
    (h : (storedValue m loc n).isSome) : (lookupA loc m.stored).isSome := by
  rcases ho : lookupA loc m.stored with _ | vals
  · unfold storedValue NpmConfManager.locVals at h
    rw [ho] at h
    simp [lookupA] at h
  · rfl

/-- A fold of `set` calls for one location does not touch an on-disk key
whose name none of the entries carries. -/
theorem restoreFold_ext_ne (vs : List (String × Option String)) (m : NpmConfManager)
    (loc : Loc) (name : String) (h : name ∉ vs.map Prod.fst) :
    lookupA (loc, name)
      ((vs.foldl (fun acc nv => acc.set nv.1 nv.2 loc) m).ext)
      = lookupA (loc, name) m.ext := by
  induction vs generalizing m with
  | nil => rfl
  | cons nv rest ih =>
    simp only [List.map_cons, List.mem_cons] at h
    push_neg at h
    rw [List.foldl_cons, ih _ h.2]
    exact set_ext_ne m nv.1 name nv.2 loc loc (by
      intro hk
      exact h.1 ((Prod.mk.injEq _ _ _ _).mp hk).2)

/-- A fold of `set` calls for one location does not touch on-disk keys of
other locations. -/
theorem restoreFold_ext_other_loc (vs : List (String × Option String))
    (m : NpmConfManager) (loc loc' : Loc) (name : String) (h : loc' ≠ loc) :
    lookupA (loc, name)
      ((vs.foldl (fun acc nv => acc.set nv.1 nv.2 loc') m).ext)
      = lookupA (loc, name) m.ext := by
  induction vs generalizing m with
  | nil => rfl
  | cons nv rest ih =>
    rw [List.foldl_cons, ih]
    exact set_ext_ne m nv.1 name nv.2 loc' loc (by
      intro hk
      exact h ((Prod.mk.injEq _ _ _ _).mp hk).1.symm)

/-- Replaying a captured map with unique names leaves each name's on-disk
entry at its captured value. -/
theorem restoreFold_ext_stored (vs : List (String × Option String))
    (m : NpmConfManager) (loc : Loc) (name : String) (w : Option String)
    (hnd : (vs.map Prod.fst).Nodup) (hl : lookupA name vs = some w) :
    lookupA (loc, name)
      ((vs.foldl (fun acc nv => acc.set nv.1 nv.2 loc) m).ext)
      = extShape w := by
  induction vs generalizing m with
  | nil => simp [lookupA] at hl
  | cons nv rest ih =>
    obtain ⟨n0, v0⟩ := nv
    simp only [List.map_cons, List.nodup_cons] at hnd
    by_cases he : n0 = name
    · subst he
      simp only [lookupA, if_pos rfl] at hl
      injection hl with hl
      subst hl
      rw [List.foldl_cons, restoreFold_ext_ne rest _ loc n0 hnd.1]
      exact set_ext_self m n0 v0 loc
    · simp only [lookupA, he, if_false] at hl
      rw [List.foldl_cons]
      exact ih _ hnd.2 hl

/-- `restore` writes a captured pair's on-disk entry back to its captured
value. -/
theorem restore_ext_stored (m : NpmConfManager) (loc : Loc) (name : String)
    (w : Option String) (h : storedValue m loc name = some w)
    (hnd : ((m.locVals loc).map Prod.fst).Nodup) :
    lookupA (loc, name) (m.restore loc).ext = extShape w := by
  have hsome : (lookupA loc m.stored).isSome :=
    storedValue_isSome_loc m loc name (by simp [h])
  unfold NpmConfManager.restore
  rw [ensureLocation_of_isSome m loc hsome]
  exact restoreFold_ext_stored _ m loc name w hnd h

/-- `restore` leaves on-disk keys of never-captured names alone. -/
theorem restore_ext_not_stored (m : NpmConfManager) (loc : Loc) (name : String)
    (h : storedValue m loc name = none) :
    lookupA (loc, name) (m.restore loc).ext = lookupA (loc, name) m.ext := by
  unfold NpmConfManager.restore
  dsimp only
  have hVals := ensureLocation_locVals m loc loc
  have hExt := ensureLocation_ext m loc
  rw [hVals]
  unfold storedValue at h
  rw [restoreFold_ext_ne _ _ _ _ ((lookupA_eq_none_iff _ _).mp h), hExt]

/-- `restore` of one location leaves other locations' on-disk keys
alone. -/
theorem restore_ext_other_loc (m : NpmConfManager) (loc loc' : Loc) (name : String)
    (h : loc ≠ loc') :
    lookupA (loc, name) (m.restore loc').ext = lookupA (loc, name) m.ext := by
  unfold NpmConfManager.restore
  rw [restoreFold_ext_other_loc _ _ _ _ _ (Ne.symm h), ensureLocation_ext]

theorem restoreFold_snapshot (vs : List (String × Option String)) (loc : Loc)
    (acc : NpmConfManager) :
    (vs.foldl (fun a nv => a.set nv.1 nv.2 loc) acc).snapshot = acc.snapshot := by
  induction vs generalizing acc with
  | nil => rfl
  | cons nv rest ih =>
    rw [List.foldl_cons, ih]
    exact set_snapshot _ _ _ _

theorem restore_snapshot (m : NpmConfManager) (loc : Loc) :
    (m.restore loc).snapshot = m.snapshot := by
  unfold NpmConfManager.restore
  dsimp only
  rw [restoreFold_snapshot, ensureLocation_snapshot]

/-- Replaying entries whose names are all already captured never changes
the capture store. -/
theorem restoreFold_stored (vs : List (String × Option String)) (m acc : NpmConfManager)
    (loc : Loc) (hacc : acc.stored = m.stored)
    (hloc : (lookupA loc m.stored).isSome)
    (hsub : ∀ p ∈ vs, p.1 ∈ (m.locVals loc).map Prod.fst) :
    (vs.foldl (fun a nv => a.set nv.1 nv.2 loc) acc).stored = m.stored := by
  induction vs generalizing acc with
  | nil => exact hacc
  | cons nv rest ih =>
    rw [List.foldl_cons]
    refine ih _ ?_ (fun p hp => hsub p (List.mem_cons_of_mem _ hp))
    have hVals : acc.locVals loc = m.locVals loc := by
      unfold NpmConfManager.locVals
      rw [hacc]
    have hcap : (storedValue acc loc nv.1).isSome := by
      unfold storedValue
      rw [hVals]
      exact lookupA_isSome_of_mem_keys _ _ (hsub nv (List.mem_cons_self _ _))
    rw [set_stored, storeOriginalValue_of_isSome _ _ _ hcap,
      ensureLocation_of_isSome _ _ (by rw [hacc]; exact hloc)]
    exact hacc

/-- `restore` of a materialised location never changes the capture
store. -/
theorem restore_stored (m : NpmConfManager) (loc : Loc)
    (h : (lookupA loc m.stored).isSome) : (m.restore loc).stored = m.stored := by
  unfold NpmConfManager.restore
  dsimp only
  rw [ensureLocation_of_isSome m loc h]
  exact restoreFold_stored _ m m loc rfl h
    (fun p hp => List.mem_map_of_mem Prod.fst hp)

theorem restoreAll_stored (m : NpmConfManager) : m.restoreAll.stored = m.stored := by
  unfold NpmConfManager.restoreAll
  have hgen : ∀ (ls : List Loc) (acc : NpmConfManager), acc.stored = m.stored →
      (∀ loc ∈ ls, loc ∈ m.stored.map Prod.fst) →
      (ls.foldl NpmConfManager.restore acc).stored = m.stored := by
    intro ls
    induction ls with
    | nil => intro acc hacc _; exact hacc
    | cons l0 rest ih =>
      intro acc hacc hmem
      rw [List.foldl_cons]
      refine ih _ ?_ (fun l hl => hmem l (List.mem_cons_of_mem _ hl))
      rw [restore_stored _ _ (by
        rw [hacc]
        exact lookupA_isSome_of_mem_keys _ _ (hmem l0 (List.mem_cons_self _ _)))]
      exact hacc
  exact hgen _ m rfl (fun loc hl => hl)

theorem restoreAll_snapshot (m : NpmConfManager) :
    m.restoreAll.snapshot = m.snapshot := by
  unfold NpmConfManager.restoreAll
  have hgen : ∀ (ls : List Loc) (acc : NpmConfManager),
      (ls.foldl NpmConfManager.restore acc).snapshot = acc.snapshot := by
    intro ls
    induction ls with
    | nil => intro acc; rfl
    | cons l0 rest ih =>
      intro acc
      rw [List.foldl_cons, ih]
      exact restore_snapshot _ _
  exact hgen _ m

/-- Restoring locations other than `loc` never touches `loc`'s on-disk
keys. -/
theorem restoreAllFold_ext_untouched (ls : List Loc) (acc : NpmConfManager)
    (loc : Loc) (name : String) (h : loc ∉ ls) :
    lookupA (loc, name) ((ls.foldl NpmConfManager.restore acc).ext)
      = lookupA (loc, name) acc.ext := by
  induction ls generalizing acc with
  | nil => rfl
  | cons l0 rest ih =>
    simp only [List.mem_cons] at h
    push_neg at h
    rw [List.foldl_cons, ih _ h.2]
    exact restore_ext_other_loc acc loc l0 name h.1

/-- After folding `restore` over a list of locations covering `loc`, a
captured pair's on-disk entry holds its captured value. -/
theorem restoreAllFold_ext_stored (ls : List Loc) (m acc : NpmConfManager)
    (loc : Loc) (name : String) (w : Option String)
    (hacc : acc.stored = m.stored)
    (hkeys : ∀ l ∈ ls, l ∈ m.stored.map Prod.fst)
    (hw : storedValue m loc name = some w)
    (hnd : ((m.locVals loc).map Prod.fst).Nodup)
    (hmem : loc ∈ ls) :
    lookupA (loc, name) ((ls.foldl NpmConfManager.restore acc).ext) = extShape w := by
  induction ls generalizing acc with
  | nil => exact absurd hmem (List.not_mem_nil _)
  | cons l0 rest ih =>
    rw [List.foldl_cons]
    have hstored0 : (l0 :: rest).foldl NpmConfManager.restore acc
        = rest.foldl NpmConfManager.restore (acc.restore l0) := List.foldl_cons _ _
    have hl0some : (lookupA l0 acc.stored).isSome := by
      rw [hacc]
      exact lookupA_isSome_of_mem_keys _ _ (hkeys l0 (List.mem_cons_self _ _))
    have hacc' : (acc.restore l0).stored = m.stored :=
      (restore_stored acc l0 hl0some).trans hacc
    by_cases hr : loc ∈ rest
    · exact ih _ hacc' (fun l hl => hkeys l (List.mem_cons_of_mem _ hl)) hr
    · have hl0 : l0 = loc := by
        rcases List.mem_cons.mp hmem with he | hm
        · exact he.symm
        · exact absurd hm hr
      subst hl0
      rw [restoreAllFold_ext_untouched rest _ l0 name hr]
      refine restore_ext_stored acc l0 name w ?_ ?_
      · unfold storedValue NpmConfManager.locVals
        rw [hacc]
        exact hw
      · have : acc.locVals l0 = m.locVals l0 := by
          unfold NpmConfManager.locVals
          rw [hacc]
        rw [this]
        exact hnd

/-- After folding `restore` over stored locations, a never-captured
pair's on-disk entry is untouched. -/
theorem restoreAllFold_ext_not_stored (ls : List Loc) (m acc : NpmConfManager)
    (loc : Loc) (name : String)
    (hacc : acc.stored = m.stored)
    (hkeys : ∀ l ∈ ls, l ∈ m.stored.map Prod.fst)
    (hw : storedValue m loc name = none) :
    lookupA (loc, name) ((ls.foldl NpmConfManager.restore acc).ext)
      = lookupA (loc, name) acc.ext := by
  induction ls generalizing acc with
  | nil => rfl
  | cons l0 rest ih =>
    have hl0some : (lookupA l0 acc.stored).isSome := by
      rw [hacc]
      exact lookupA_isSome_of_mem_keys _ _ (hkeys l0 (List.mem_cons_self _ _))
    have hacc' : (acc.restore l0).stored = m.stored :=
      (restore_stored acc l0 hl0some).trans hacc
    rw [List.foldl_cons, ih _ hacc' (fun l hl => hkeys l (List.mem_cons_of_mem _ hl))]
    by_cases he : l0 = loc
    · subst he
      refine restore_ext_not_stored acc l0 name ?_
      unfold storedValue NpmConfManager.locVals
      rw [hacc]
      exact hw
    · exact restore_ext_other_loc acc loc l0 name (fun hh => he hh.symm)

theorem wfStored_of_stored_eq (m m' : NpmConfManager) (h : m'.stored = m.stored)
    (hwf : wfStored m) : wfStored m' := by
  unfold wfStored at hwf ⊢
  rw [h]
  exact hwf

theorem wfStored_mk (snapshot : List ((String × Loc) × String))
    (ext : List ((Loc × String) × String)) : wfStored (mkNpmConfManager snapshot ext) := by
  constructor
  · simp [mkNpmConfManager]
  · intro loc vals h
    simp [mkNpmConfManager, lookupA] at h

theorem wfStored_ensureLocation (m : NpmConfManager) (loc : Loc) (hwf : wfStored m) :
    wfStored (m.ensureLocation loc) := by
  unfold NpmConfManager.ensureLocation
  by_cases h : (lookupA loc m.stored).isSome
  · simpa [h] using hwf
  · simp only [h, Bool.false_eq_true, if_false]
    constructor
    · simp only [List.map_append, List.map_cons, List.map_nil]
      have hnm : loc ∉ m.stored.map Prod.fst :=
        (lookupA_eq_none_iff _ _).mp (Option.not_isSome_iff_eq_none.mp (by simpa using h))
      simp [List.nodup_append, hwf.1, hnm]
    · intro loc' vals hv
      rcases ho : lookupA loc' m.stored with _ | vals0
      · rw [show lookupA loc' ((m.stored ++ [(loc, [])] :
            List (Loc × List (String × Option String)))) = lookupA loc' [(loc, [])] from
          lookupA_append_right _ _ _ ho] at hv
        by_cases he : loc = loc'
        · rw [show lookupA loc' [((loc, []) :
              Loc × List (String × Option String))] = some [] from by
            simp [lookupA, he]] at hv
          injection hv with hv
          subst hv
          simp
        · simp [lookupA, he] at hv
      · rw [lookupA_append_left _ _ _ _ ho] at hv
        injection hv with hv
        subst hv
        exact hwf.2 loc' vals0 ho

theorem storeOriginalValue_stored_none (m : NpmConfManager) (n : String) (loc : Loc)
    (h : storedValue m loc n = none) :
    (m.storeOriginalValue n loc).stored
      = setA loc (m.locVals loc ++ [(n, m.get n loc)]) (m.ensureLocation loc).stored := by
  unfold NpmConfManager.storeOriginalValue
  dsimp only
  rw [ensureLocation_locVals m loc loc]
  unfold storedValue at h
  simp [h]

theorem wfStored_storeOriginalValue (m : NpmConfManager) (n : String) (loc : Loc)
    (hwf : wfStored m) : wfStored (m.storeOriginalValue n loc) := by
  by_cases hcap : (storedValue m loc n).isSome
  · rw [storeOriginalValue_of_isSome m n loc hcap]
    exact wfStored_ensureLocation m loc hwf
  · have hnone : storedValue m loc n = none :=
      Option.not_isSome_iff_eq_none.mp (by simpa using hcap)
    have hwf1 := wfStored_ensureLocation m loc hwf
    have hst := storeOriginalValue_stored_none m n loc hnone
    have hls : (lookupA loc (m.ensureLocation loc).stored).isSome :=
      ensureLocation_isSome m loc
    constructor
    · rw [hst, map_fst_setA_of_isSome _ _ _ hls]
      exact hwf1.1
    · intro loc' vals hv
      rw [hst] at hv
      by_cases he : loc' = loc
      · subst he
        rw [lookupA_setA_self] at hv
        injection hv with hv
        subst hv
        have hvals : lookupA loc' (m.ensureLocation loc').stored
            = some ((m.ensureLocation loc').locVals loc') :=
          locVals_lookup_of_isSome _ _ hls
        have hnd0 := hwf1.2 loc' _ hvals
        rw [ensureLocation_locVals m loc' loc'] at hnd0
        have hnmem : n ∉ (m.locVals loc').map Prod.fst := by
          unfold storedValue at hnone
          exact (lookupA_eq_none_iff _ _).mp hnone
        simp [List.nodup_append, hnd0, hnmem]
      · rw [lookupA_setA_ne _ _ _ _ he] at hv
        exact hwf1.2 loc' vals hv

theorem wfStored_set (m : NpmConfManager) (n : String) (v : Option String) (loc : Loc)
    (hwf : wfStored m) : wfStored (m.set n v loc) :=
  wfStored_of_stored_eq _ _ (set_stored m n v loc)
    (wfStored_storeOriginalValue m n loc hwf)

theorem wfStored_applySets (m : NpmConfManager) (ops : List SetOp)
    (hwf : wfStored m) : wfStored (applySets m ops) := by
  induction ops generalizing m with
  | nil => exact hwf
  | cons op rest ih => exact ih _ (wfStored_set m op.name op.value op.loc hwf)

theorem wfStored_locVals_nodup (m : NpmConfManager) (loc : Loc) (hwf : wfStored m) :
    ((m.locVals loc).map Prod.fst).Nodup := by
  unfold NpmConfManager.locVals
  rcases ho : lookupA loc m.stored with _ | vals
  · simp
  · exact hwf.2 loc vals ho

theorem storedValue_congr (m m' : NpmConfManager) (loc : Loc) (n : String)
    (h : m'.stored = m.stored) : storedValue m' loc n = storedValue m loc n := by
  unfold storedValue NpmConfManager.locVals
  rw [h]

theorem mem_keys_of_storedValue_isSome (m : NpmConfManager) (loc : Loc) (n : String)
    (h : (storedValue m loc n).isSome) : loc ∈ m.stored.map Prod.fst := by
  by_contra hc
  have hnone := (lookupA_eq_none_iff loc m.stored).mpr hc
  have hsome := storedValue_isSome_loc m loc n h
  rw [hnone] at hsome
  simp at hsome

/-- C2: for any sequence of set calls on a fresh manager containing at
least one call for the pair (name, loc), followed by restore of that
location, the captured entry is the snapshot's scope-local value for the
pair — the value read at the first set call — and the on-disk entry ends
at exactly that value (deleted when it was absent or empty). -/
theorem claim_C2_restore_writes_first_captured
    (snapshot : List ((String × Loc) × String)) (ext0 : List ((Loc × String) × String))
    (ops : List SetOp) (name : String) (v : Option String) (loc : Loc)
    (hmem : SetOp.mk name v loc ∈ ops) :
    storedValue (applySets (mkNpmConfManager snapshot ext0) ops) loc name
      = some (lookupA (name, loc) snapshot) ∧
    lookupA (loc, name)
      ((applySets (mkNpmConfManager snapshot ext0) ops).restore loc).ext
      = extShape (lookupA (name, loc) snapshot) := by
  have h0 : storedValue (mkNpmConfManager snapshot ext0) loc name = none := by
    unfold storedValue NpmConfManager.locVals mkNpmConfManager
    simp [lookupA]
  have hcap := applySets_capture (mkNpmConfManager snapshot ext0) ops name loc v hmem h0
  have hget : (mkNpmConfManager snapshot ext0).get name loc
      = lookupA (name, loc) snapshot := rfl
  rw [hget] at hcap
  refine ⟨hcap, ?_⟩
  have hwf := wfStored_applySets _ ops (wfStored_mk snapshot ext0)
  exact restore_ext_stored _ loc name _ hcap (wfStored_locVals_nodup _ loc hwf)

theorem claim_C2_restore_writes_first_captured_witness :
    SetOp.mk "registry" (some "http://localhost:4873/") (some "user") ∈
      [SetOp.mk "registry" (some "http://localhost:4873/") (some "user"),
       SetOp.mk "registry" (some "http://second.example/") (some "user")] ∧
    (storedValue (applySets
        (mkNpmConfManager [(("registry", (some "user" : Loc)), "https://orig.example/")] [])
        [SetOp.mk "registry" (some "http://localhost:4873/") (some "user"),
         SetOp.mk "registry" (some "http://second.example/") (some "user")])
        (some "user") "registry"
      = some (lookupA ("registry", (some "user" : Loc))
          [(("registry", (some "user" : Loc)), "https://orig.example/")]) ∧
     lookupA ((some "user" : Loc), "registry")
        ((applySets
          (mkNpmConfManager [(("registry", (some "user" : Loc)), "https://orig.example/")] [])
          [SetOp.mk "registry" (some "http://localhost:4873/") (some "user"),
           SetOp.mk "registry" (some "http://second.example/") (some "user")]).restore
          (some "user")).ext
      = extShape (lookupA ("registry", (some "user" : Loc))
          [(("registry", (some "user" : Loc)), "https://orig.example/")])) :=
  ⟨by decide,
   claim_C2_restore_writes_first_captured
     [(("registry", (some "user" : Loc)), "https://orig.example/")] []
     [SetOp.mk "registry" (some "http://localhost:4873/") (some "user"),
      SetOp.mk "registry" (some "http://second.example/") (some "user")]
     "registry" (some "http://localhost:4873/") (some "user") (by decide)⟩

/-- C4 as stated is false: on the first set of a (key, scope) pair,
`storeOriginalValue` reads and stores only `get(name, location)` — the
scope-local value — not the effective value.  With a snapshot where the
two differ, the captured entry is the scope-local value and is not the
effective value. -/
theorem claim_C4_counterexample :
    storedValue
        ((mkNpmConfManager
          [(("registry", (none : Loc)), "https://effective.example/"),
           (("registry", (some "user" : Loc)), "https://userlocal.example/")] []).set
          "registry" (some "http://localhost:4873/") (some "user"))
        (some "user") "registry"
      = some (some "https://userlocal.example/") ∧
    (mkNpmConfManager
        [(("registry", (none : Loc)), "https://effective.example/"),
         (("registry", (some "user" : Loc)), "https://userlocal.example/")] []).get
        "registry" none = some "https://effective.example/" ∧
    ¬ storedValue
        ((mkNpmConfManager
          [(("registry", (none : Loc)), "https://effective.example/"),
           (("registry", (some "user" : Loc)), "https://userlocal.example/")] []).set
          "registry" (some "http://localhost:4873/") (some "user"))
        (some "user") "registry"
      = some ((mkNpmConfManager
          [(("registry", (none : Loc)), "https://effective.example/"),
           (("registry", (some "user" : Loc)), "https://userlocal.example/")] []).get
          "registry" none) := by
  refine ⟨by decide, by decide, by decide⟩

/-- C4 (amended): on the first set for a (key, scope) pair the manager
reads and stores the key's scope-local value (only — not the effective
value), and this capture happens exactly once per pair, before any
mutation of that pair: the captured entry equals the pre-mutation
scope-local read and no later set call, for this or any other pair,
changes it. -/
theorem claim_C4_first_set_captures_once (m : NpmConfManager) (name : String)
    (v : Option String) (loc : Loc) (h : storedValue m loc name = none) :
    storedValue (m.set name v loc) loc name = some (m.get name loc) ∧
    ∀ ops : List SetOp,
      storedValue (applySets (m.set name v loc) ops) loc name
        = some (m.get name loc) := by
  have h1 := set_storedValue_first m name v loc h
  exact ⟨h1, fun ops => applySets_storedValue_preserved _ ops name loc _ h1⟩

theorem claim_C4_first_set_captures_once_witness :
    storedValue (mkNpmConfManager
        [(("registry", (some "user" : Loc)), "https://orig.example/")] [])
        (some "user") "registry" = none ∧
    (storedValue ((mkNpmConfManager
          [(("registry", (some "user" : Loc)), "https://orig.example/")] []).set
          "registry" (some "http://localhost:4873/") (some "user"))
        (some "user") "registry"
      = some ((mkNpmConfManager
          [(("registry", (some "user" : Loc)), "https://orig.example/")] []).get
          "registry" (some "user")) ∧
     ∀ ops : List SetOp,
       storedValue (applySets ((mkNpmConfManager
            [(("registry", (some "user" : Loc)), "https://orig.example/")] []).set
            "registry" (some "http://localhost:4873/") (some "user")) ops)
          (some "user") "registry"
        = some ((mkNpmConfManager
            [(("registry", (some "user" : Loc)), "https://orig.example/")] []).get
            "registry" (some "user"))) :=
  ⟨by decide,
   claim_C4_first_set_captures_once
     (mkNpmConfManager [(("registry", (some "user" : Loc)), "https://orig.example/")] [])
     "registry" (some "http://localhost:4873/") (some "user") (by decide)⟩

/-- C10: on any manager state reachable from the constructor by set
calls, a second restoreAll (with no intervening sets) leaves the capture
store, the snapshot and every key of the on-disk configuration exactly
as the first restoreAll left them: restoration never clears the captured
snapshots, and replaying them writes the same values to the same keys. -/
theorem claim_C10_restoreAll_idempotent
    (snapshot : List ((String × Loc) × String)) (ext0 : List ((Loc × String) × String))
    (ops : List SetOp) :
    ((applySets (mkNpmConfManager snapshot ext0) ops).restoreAll.restoreAll).stored
      = ((applySets (mkNpmConfManager snapshot ext0) ops).restoreAll).stored ∧
    ((applySets (mkNpmConfManager snapshot ext0) ops).restoreAll.restoreAll).snapshot
      = ((applySets (mkNpmConfManager snapshot ext0) ops).restoreAll).snapshot ∧
    ∀ (loc : Loc) (name : String),
      lookupA (loc, name)
        (((applySets (mkNpmConfManager snapshot ext0) ops).restoreAll.restoreAll).ext)
      = lookupA (loc, name)
        (((applySets (mkNpmConfManager snapshot ext0) ops).restoreAll).ext) := by
  refine ⟨restoreAll_stored _, restoreAll_snapshot _, ?_⟩
  intro loc name
  have hwf := wfStored_applySets _ ops (wfStored_mk snapshot ext0)
  have hst1 := restoreAll_stored (applySets (mkNpmConfManager snapshot ext0) ops)
  have hwf1 := wfStored_of_stored_eq _ _ hst1 hwf
  rcases hsv : storedValue ((applySets (mkNpmConfManager snapshot ext0) ops).restoreAll)
      loc name with _ | w
  · show lookupA (loc, name)
        ((((applySets (mkNpmConfManager snapshot ext0) ops).restoreAll).stored.map
          Prod.fst).foldl NpmConfManager.restore
          ((applySets (mkNpmConfManager snapshot ext0) ops).restoreAll)).ext
      = _
    exact restoreAllFold_ext_not_stored _ _ _ loc name rfl (fun l hl => hl) hsv
  · have hb : lookupA (loc, name)
        (((applySets (mkNpmConfManager snapshot ext0) ops).restoreAll).restoreAll).ext
        = extShape w := by
      show lookupA (loc, name)
          ((((applySets (mkNpmConfManager snapshot ext0) ops).restoreAll).stored.map
            Prod.fst).foldl NpmConfManager.restore
            ((applySets (mkNpmConfManager snapshot ext0) ops).restoreAll)).ext
        = extShape w
      exact restoreAllFold_ext_stored _ _ _ loc name w rfl (fun l hl => hl) hsv
        (wfStored_locVals_nodup _ loc hwf1)
        (mem_keys_of_storedValue_isSome _ loc name (by simp [hsv]))
    have hsv0 : storedValue (applySets (mkNpmConfManager snapshot ext0) ops) loc name
        = some w := by
      rw [← storedValue_congr _ _ loc name hst1]
      exact hsv
    have ha : lookupA (loc, name)
        (((applySets (mkNpmConfManager snapshot ext0) ops)).restoreAll).ext
        = extShape w := by
      show lookupA (loc, name)
          (((applySets (mkNpmConfManager snapshot ext0) ops).stored.map
            Prod.fst).foldl NpmConfManager.restore
            (applySets (mkNpmConfManager snapshot ext0) ops)).ext
        = extShape w
      exact restoreAllFold_ext_stored _ _ _ loc name w rfl (fun l hl => hl) hsv0
        (wfStored_locVals_nodup _ loc hwf)
        (mem_keys_of_storedValue_isSome _ loc name (by simp [hsv0]))
    rw [hb, ha]

/-- A guarded reduce that writes `acc[k x] = v x` for every unfiltered
element appends the surviving entries in order, when their keys are fresh
and mutually distinct. -/
theorem foldl_guard_setA {α κ β : Type} [DecidableEq κ] (q : α → Bool) (k : α → κ)
    (v : α → β) (xs : List α) (acc : List (κ × β))
    (hnd : ((xs.filter (fun x => !(q x))).map k).Nodup)
    (hfresh : ∀ x ∈ xs.filter (fun x => !(q x)), lookupA (k x) acc = none) :
    xs.foldl (fun a x => if q x then a else setA (k x) (v x) a) acc
      = acc ++ (xs.filter (fun x => !(q x))).map (fun x => (k x, v x)) := by
  induction xs generalizing acc with
  | nil => simp
  | cons x rest ih =>
    by_cases hq : q x
    · have hf : (x :: rest).filter (fun y => !(q y)) = rest.filter (fun y => !(q y)) := by
        simp [List.filter_cons, hq]
      rw [hf] at hnd hfresh
      rw [List.foldl_cons, if_pos hq, hf]
      exact ih acc hnd hfresh
    · have hf : (x :: rest).filter (fun y => !(q y))
          = x :: rest.filter (fun y => !(q y)) := by
        simp [List.filter_cons, hq]
      rw [hf] at hnd hfresh
      simp only [List.map_cons, List.nodup_cons] at hnd
      have hx : lookupA (k x) acc = none := hfresh x (List.mem_cons_self _ _)
      rw [List.foldl_cons, if_neg hq, setA_eq_append _ _ _ hx]
      have hfresh' : ∀ y ∈ rest.filter (fun z => !(q z)),
          lookupA (k y) (acc ++ [(k x, v x)]) = none := by
        intro y hy
        rw [lookupA_append_right _ _ _ (hfresh y (List.mem_cons_of_mem _ hy))]
        have hkne : ¬ k x = k y := by
          intro he
          exact hnd.1 (he ▸ List.mem_map_of_mem k hy)
        simp [lookupA, hkne]
      rw [ih _ hnd.2 hfresh', hf, List.map_cons, List.append_assoc]
      rfl

/-- C6 as stated is false: an item whose current effective registry value
is empty gets no package-routing rule either — the generated `packages`
object of a config whose only item (the unscoped default) has no current
value is empty, with no catch-all rule. -/
theorem claim_C6_counterexample :
    (createVerdaccioConfig
      [{ name := "npm", key := "registry", value := none, locationValue := none }]).packages
      = [] ∧
    lookupA "**" (createVerdaccioConfig
      [{ name := "npm", key := "registry", value := none,
         locationValue := none }]).packages = none ∧
    verdaccioPackageKey
      { name := "npm", key := "registry", value := none, locationValue := none }
      = "**" := by
  refine ⟨rfl, rfl, by decide⟩

/-- C6 (amended): the generated configuration has one uplink entry per
scope/default item whose current effective value is non-empty (mapping
the scope name to the upstream url), and one package-routing rule per
scope/default item whose current effective value is non-empty — pattern
`@scope/*` for a scope, `**` for the default — with access, publish and
unpublish set to `$all` and proxy set to the uplink name.  Items with an
empty current value get neither an uplink nor a rule. -/
theorem claim_C6_uplinks_and_rules (items : List NpmRegistryConfigItem)
    (hnames : ((items.filter (fun it => !(falsy it.value))).map
      (fun it => it.name)).Nodup)
    (hkeys : ((items.filter (fun it => !(falsy it.value))).map
      verdaccioPackageKey).Nodup) :
    (createVerdaccioConfig items).uplinks
      = (items.filter (fun it => !(falsy it.value))).map
          (fun it => (it.name, ({ url := it.value.getD "" } : VerdaccioUplink))) ∧
    (createVerdaccioConfig items).packages
      = (items.filter (fun it => !(falsy it.value))).map
          (fun it => (verdaccioPackageKey it,
            ({ access := "$all", publish := "$all", unpublish := "$all",
               proxy := it.name } : VerdaccioPackageConf))) := by
  constructor
  · have h := foldl_guard_setA (fun it => falsy it.value)
      (fun it => it.name) (fun it => ({ url := it.value.getD "" } : VerdaccioUplink))
      items [] hnames (fun x _ => rfl)
    rw [List.nil_append] at h
    exact h
  · have h := foldl_guard_setA (fun it => falsy it.value)
      verdaccioPackageKey
      (fun it => ({ access := "$all", publish := "$all", unpublish := "$all",
                    proxy := it.name } : VerdaccioPackageConf))
      items [] hkeys (fun x _ => rfl)
    rw [List.nil_append] at h
    exact h

theorem claim_C6_uplinks_and_rules_witness :
    (((([{ name := "acme", key := "@acme:registry",
           value := some "https://registry.npmjs.org/", locationValue := none },
         { name := "npm", key := "registry",
           value := some "https://registry.npmjs.org/", locationValue := some "x" },
         { name := "empty", key := "@empty:registry", value := none,
           locationValue := none }] :
        List NpmRegistryConfigItem).filter (fun it => !(falsy it.value))).map
          (fun it => it.name)).Nodup ∧
     ((([{ name := "acme", key := "@acme:registry",
           value := some "https://registry.npmjs.org/", locationValue := none },
         { name := "npm", key := "registry",
           value := some "https://registry.npmjs.org/", locationValue := some "x" },
         { name := "empty", key := "@empty:registry", value := none,
           locationValue := none }] :
        List NpmRegistryConfigItem).filter (fun it => !(falsy it.value))).map
          verdaccioPackageKey).Nodup) ∧
    ((createVerdaccioConfig
        [{ name := "acme", key := "@acme:registry",
           value := some "https://registry.npmjs.org/", locationValue := none },
         { name := "npm", key := "registry",
           value := some "https://registry.npmjs.org/", locationValue := some "x" },
         { name := "empty", key := "@empty:registry", value := none,
           locationValue := none }]).uplinks
      = (([{ name := "acme", key := "@acme:registry",
             value := some "https://registry.npmjs.org/", locationValue := none },
           { name := "npm", key := "registry",
             value := some "https://registry.npmjs.org/", locationValue := some "x" },
           { name := "empty", key := "@empty:registry", value := none,
             locationValue := none }] :
          List NpmRegistryConfigItem).filter (fun it => !(falsy it.value))).map
            (fun it => (it.name, ({ url := it.value.getD "" } : VerdaccioUplink))) ∧
     (createVerdaccioConfig
        [{ name := "acme", key := "@acme:registry",
           value := some "https://registry.npmjs.org/", locationValue := none },
         { name := "npm", key := "registry",
           value := some "https://registry.npmjs.org/", locationValue := some "x" },
         { name := "empty", key := "@empty:registry", value := none,
           locationValue := none }]).packages
      = (([{ name := "acme", key := "@acme:registry",
             value := some "https://registry.npmjs.org/", locationValue := none },
           { name := "npm", key := "registry",
             value := some "https://registry.npmjs.org/", locationValue := some "x" },
           { name := "empty", key := "@empty:registry", value := none,
             locationValue := none }] :
          List NpmRegistryConfigItem).filter (fun it => !(falsy it.value))).map
            (fun it => (verdaccioPackageKey it,
              ({ access := "$all", publish := "$all", unpublish := "$all",
                 proxy := it.name } : VerdaccioPackageConf)))) :=
  ⟨⟨by decide, by decide⟩,
   claim_C6_uplinks_and_rules
     [{ name := "acme", key := "@acme:registry",
        value := some "https://registry.npmjs.org/", locationValue := none },
      { name := "npm", key := "registry",
        value := some "https://registry.npmjs.org/", locationValue := some "x" },
      { name := "empty", key := "@empty:registry", value := none,
        locationValue := none }] (by decide) (by decide)⟩

/-- C5: the orchestrator's outcome is a function of the verdaccio child
process's terminal event (the only events that settle the launch
promise, so the returned promise does not settle while the child still
runs): every rejection — error, disconnect, non-zero or null exit code —
yields success `false` with the configured port, and success `true` is
returned exactly for a child exit with code 0. -/
theorem claim_C5_settles_on_child_exit (port : Nat) (ev : VerdaccioChildEvent) :
    (runExecutorOutcome port ev).port = port ∧
    ((runExecutorOutcome port ev).success = true
      ↔ ev = VerdaccioChildEvent.exit (some 0)) := by
  unfold runExecutorOutcome startVerdaccioSettle
  rcases ev with e | _ | code
  · simp
  · simp
  · by_cases hc : code = some 0
    · simp [hc]
    · simp [hc]

/-- C8: the process-exit/signal handler always completes: the child (when
running) is signalled first, restoration is then attempted, and a
restoration error is caught and logged, never re-thrown. -/
theorem claim_C8_restore_errors_never_escape (childRunning : Bool)
    (signal : Option String) (restoreResult : Except String Unit) :
    ∃ steps : List ExitStep,
      processExitListener childRunning signal restoreResult = Except.ok steps ∧
      ExitStep.restoreAttempt ∈ steps ∧
      (∀ e, restoreResult = Except.error e → ExitStep.logError e ∈ steps) ∧
      (childRunning = true → steps.head? = some (ExitStep.killChild signal)) := by
  refine ⟨(if childRunning then [ExitStep.killChild signal] else []) ++
    catchRestoreError restoreResult, rfl, ?_, ?_, ?_⟩
  · rcases restoreResult with _ | e <;> simp [catchRestoreError]
  · intro e he
    subst he
    simp [catchRestoreError]
  · intro hc
    subst hc
    simp

theorem mem_of_lookupA {α β : Type} [DecidableEq α] (k : α) (v : β) (l : List (α × β))
    (h : lookupA k l = some v) : (k, v) ∈ l := by
  induction l with
  | nil => simp [lookupA] at h
  | cons e rest ih =>
    obtain ⟨k', v'⟩ := e
    by_cases h0 : k' = k
    · subst h0
      simp [lookupA] at h
      simp [h]
    · simp [lookupA, h0] at h
      exact List.mem_cons_of_mem _ (ih h)

theorem entriesPaths_shape (es : List (String × FSTree)) (p : List String)
    (hp : p ∈ entriesPaths es) :
    ∃ n t q, (n, t) ∈ es ∧ p = n :: q ∧ q ∈ filePathsOf t := by
  induction es with
  | nil => simp [entriesPaths] at hp
  | cons e rest ih =>
    obtain ⟨n0, t0⟩ := e
    simp only [entriesPaths, List.mem_append, List.mem_map] at hp
    rcases hp with ⟨q, hq, hpq⟩ | hp
    · exact ⟨n0, t0, q, List.mem_cons_self _ _, hpq.symm, hq⟩
    · obtain ⟨n, t, q, hm, hpq, hq⟩ := ih hp
      exact ⟨n, t, q, List.mem_cons_of_mem _ hm, hpq, hq⟩

theorem mem_entriesPaths_of (es : List (String × FSTree)) (n : String) (t : FSTree)
    (q : List String) (hm : (n, t) ∈ es) (hq : q ∈ filePathsOf t) :
    n :: q ∈ entriesPaths es := by
  induction es with
  | nil => simp at hm
  | cons e rest ih =>
    obtain ⟨n0, t0⟩ := e
    simp only [entriesPaths, List.mem_append, List.mem_map]
    rcases List.mem_cons.mp hm with he | hm'
    · injection he with he1 he2
      subst he1
      subst he2
      exact Or.inl ⟨q, hq, rfl⟩
    · exact Or.inr (ih hm')

theorem lookupA_of_mem_wf (es : List (String × FSTree)) (n : String) (t : FSTree)
    (hwf : wfEntries es = true) (hm : (n, t) ∈ es) : lookupA n es = some t := by
  induction es with
  | nil => simp at hm
  | cons e rest ih =>
    obtain ⟨n0, t0⟩ := e
    simp only [wfEntries, Bool.and_eq_true] at hwf
    rcases List.mem_cons.mp hm with he | hm'
    · injection he with he1 he2
      subst he1
      subst he2
      simp [lookupA]
    · have hne : ¬ n0 = n := by
        intro he
        subst he
        have := lookupA_isSome_of_mem_keys n0 rest (List.mem_map_of_mem Prod.fst hm')
        rw [Option.isNone_iff_eq_none.mp hwf.1.1] at this
        simp at this
      simp only [lookupA, hne, if_false]
      exact ih hwf.2 hm'

theorem wfEntries_mem_wfTree (es : List (String × FSTree)) (n : String) (t : FSTree)
    (hwf : wfEntries es = true) (hm : (n, t) ∈ es) : wfTree t = true := by
  induction es with
  | nil => simp at hm
  | cons e rest ih =>
    obtain ⟨n0, t0⟩ := e
    simp only [wfEntries, Bool.and_eq_true] at hwf
    rcases List.mem_cons.mp hm with he | hm'
    · injection he with he1 he2
      subst he2
      exact hwf.1.2
    · exact ih hwf.2 hm'

theorem getFile_isSome_of_mem (p : List String) :
    ∀ t : FSTree, wfTree t = true → p ∈ filePathsOf t →
      ∃ c, getFile t p = some c := by
  induction p with
  | nil =>
    intro t hw hp
    cases t with
    | file c => exact ⟨c, rfl⟩
    | dir es =>
      obtain ⟨n, t', q, _, hpq, _⟩ := entriesPaths_shape es [] hp
      simp at hpq
  | cons n q ih =>
    intro t hw hp
    cases t with
    | file c => simp [filePathsOf] at hp
    | dir es =>
      obtain ⟨m, t', q', hm, hpq, hq'⟩ := entriesPaths_shape es (n :: q) hp
      injection hpq with h1 h2
      subst h1
      subst h2
      have hwe : wfEntries es = true := by simpa [wfTree] using hw
      have hlk := lookupA_of_mem_wf es n t' hwe hm
      have hwt := wfEntries_mem_wfTree es n t' hwe hm
      obtain ⟨c, hc⟩ := ih t' hwt hq'
      exact ⟨c, by simp [getFile, hlk, hc]⟩

theorem mem_paths_of_getFile_some (p : List String) :
    ∀ (t : FSTree) (c : String), getFile t p = some c → p ∈ filePathsOf t := by
  induction p with
  | nil =>
    intro t c h
    cases t with
    | file c0 => simp [filePathsOf]
    | dir es => simp [getFile] at h
  | cons n q ih =>
    intro t c h
    cases t with
    | file c0 => simp [getFile] at h
    | dir es =>
      simp only [getFile] at h
      rcases hlk : lookupA n es with _ | t'
      · rw [hlk] at h
        simp at h
      · rw [hlk] at h
        simp only at h
        exact mem_entriesPaths_of es n t' q (mem_of_lookupA n t' es hlk) (ih t' c h)

theorem copyEntries_lookup_frozen (es : List (String × FSTree)) :
    ∀ (ds rs : List (String × FSTree)) (m : String),
      copyEntries es ds = Except.ok rs → m ∉ es.map Prod.fst →
      lookupA m rs = lookupA m ds := by
  induction es with
  | nil =>
    intro ds rs m hc _
    simp only [copyEntries] at hc
    injection hc with hc
    rw [hc]
  | cons e rest ih =>
    obtain ⟨n, t⟩ := e
    intro ds rs m hc hm
    simp only [List.map_cons, List.mem_cons] at hm
    push_neg at hm
    cases t with
    | file c =>
      simp only [copyEntries] at hc
      rcases hlk : lookupA n ds with _ | t0
      · rw [hlk] at hc
        simp only at hc
        rw [ih _ _ _ hc hm.2]
        exact lookupA_setA_ne _ _ _ _ hm.1
      · rw [hlk] at hc
        cases t0 with
        | file c0 =>
          simp only at hc
          rw [ih _ _ _ hc hm.2]
          exact lookupA_setA_ne _ _ _ _ hm.1
        | dir ds0 => simp at hc
    | dir subEs =>
      simp only [copyEntries] at hc
      rcases hcf : copyFolderSync (FSTree.dir subEs) (lookupA n ds) with e0 | sub
      · rw [hcf] at hc
        simp at hc
      · rw [hcf] at hc
        simp only at hc
        rw [ih _ _ _ hc hm.2]
        exact lookupA_setA_ne _ _ _ _ hm.1

theorem getFile_dir_of_lookup (es : List (String × FSTree)) (n : String) (t : FSTree)
    (q : List String) (h : lookupA n es = some t) :
    getFile (FSTree.dir es) (n :: q) = getFile t q := by
  simp [getFile, h]

theorem getFile_dir_cons_ne (n : String) (t : FSTree) (rest : List (String × FSTree))
    (m : String) (q : List String) (h : ¬ n = m) :
    getFile (FSTree.dir ((n, t) :: rest)) (m :: q) = getFile (FSTree.dir rest) (m :: q) := by
  simp [getFile, lookupA, h]

/-- Copying a wellformed source entry list into any destination list
preserves the content of every source file path in the result. -/
theorem copyEntries_preserves_aux (N : Nat) :
    ∀ (es ds rs : List (String × FSTree)), sizeOf es ≤ N →
      wfEntries es = true → copyEntries es ds = Except.ok rs →
      ∀ p ∈ entriesPaths es,
        getFile (FSTree.dir rs) p = getFile (FSTree.dir es) p := by
  induction N with
  | zero =>
    intro es ds rs hsz hwf hc p hp
    cases es with
    | nil => simp [entriesPaths] at hp
    | cons e rest =>
      simp at hsz
  | succ M ih =>
    intro es ds rs hsz hwf hc p hp
    cases es with
    | nil => simp [entriesPaths] at hp
    | cons e rest =>
      obtain ⟨n, t⟩ := e
      simp only [wfEntries, Bool.and_eq_true] at hwf
      obtain ⟨⟨hni, hwt⟩, hwr⟩ := hwf
      have hrest_sz : sizeOf rest ≤ M := by
        simp at hsz
        omega
      have hnotin : n ∉ rest.map Prod.fst := by
        intro hmem
        have hs := lookupA_isSome_of_mem_keys n rest hmem
        rw [Option.isNone_iff_eq_none.mp hni] at hs
        simp at hs
      cases t with
      | file c =>
        simp only [copyEntries] at hc
        have step : copyEntries rest (setA n (FSTree.file c) ds) = Except.ok rs := by
          rcases hlk : lookupA n ds with _ | t0
          · rw [hlk] at hc
            exact hc
          · rw [hlk] at hc
            cases t0 with
            | file c0 => exact hc
            | dir ds0 => simp at hc
        simp only [entriesPaths, filePathsOf, List.map, List.mem_append,
          List.mem_singleton] at hp
        rcases hp with hpe | hpr
        · subst hpe
          have hfrozen := copyEntries_lookup_frozen rest _ _ n step hnotin
          rw [lookupA_setA_self] at hfrozen
          rw [getFile_dir_of_lookup rs n (FSTree.file c) [] hfrozen,
            getFile_dir_of_lookup _ n (FSTree.file c) [] (by simp [lookupA])]
        · obtain ⟨m, t', q, hmem, hpq, _⟩ := entriesPaths_shape rest p hpr
          subst hpq
          have hmn : ¬ n = m := by
            intro he
            exact hnotin (he ▸ List.mem_map_of_mem Prod.fst hmem)
          rw [ih rest _ rs hrest_sz hwr step _ hpr,
            getFile_dir_cons_ne n (FSTree.file c) rest m q hmn]
      | dir subEs =>
        simp only [copyEntries] at hc
        rcases hcf : copyFolderSync (FSTree.dir subEs) (lookupA n ds) with e0 | sub
        · rw [hcf] at hc
          simp at hc
        · rw [hcf] at hc
          simp only at hc
          have hsubEs_sz : sizeOf subEs ≤ M := by
            simp at hsz
            omega
          have hwsub : wfEntries subEs = true := hwt
          obtain ⟨dsub, subRs, hr_eq, hce⟩ :
              ∃ (dsub : List (String × FSTree)) (subRs : List (String × FSTree)),
                sub = FSTree.dir subRs ∧ copyEntries subEs dsub = Except.ok subRs := by
            unfold copyFolderSync at hcf
            cases h0 : lookupA n ds with
            | none =>
              rw [h0] at hcf
              dsimp only at hcf
              rcases hce : copyEntries subEs [] with e1 | subRs
              · rw [hce] at hcf
                simp [Except.map] at hcf
              · rw [hce] at hcf
                simp only [Except.map] at hcf
                injection hcf with hcf
                exact ⟨[], subRs, hcf.symm, hce⟩
            | some t0 =>
              rw [h0] at hcf
              cases t0 with
              | file c0 => simp at hcf
              | dir ds0 =>
                dsimp only at hcf
                rcases hce : copyEntries subEs ds0 with e1 | subRs
                · rw [hce] at hcf
                  simp [Except.map] at hcf
                · rw [hce] at hcf
                  simp only [Except.map] at hcf
                  injection hcf with hcf
                  exact ⟨ds0, subRs, hcf.symm, hce⟩
          subst hr_eq
          simp only [entriesPaths, filePathsOf, List.mem_append, List.mem_map] at hp
          rcases hp with ⟨q, hq, hpq⟩ | hpr
          · subst hpq
            have hfrozen := copyEntries_lookup_frozen rest _ _ n hc hnotin
            rw [lookupA_setA_self] at hfrozen
            rw [getFile_dir_of_lookup rs n (FSTree.dir subRs) q hfrozen,
              getFile_dir_of_lookup _ n (FSTree.dir subEs) q (by simp [lookupA])]
            exact ih subEs dsub subRs hsubEs_sz hwsub hce q hq
          · obtain ⟨m, t', q, hmem, hpq, _⟩ := entriesPaths_shape rest p hpr
            subst hpq
            have hmn : ¬ n = m := by
              intro he
              exact hnotin (he ▸ List.mem_map_of_mem Prod.fst hmem)
            rw [ih rest _ rs hrest_sz hwr hc _ hpr,
              getFile_dir_cons_ne n (FSTree.dir subEs) rest m q hmn]

/-- Copying a wellformed source into a destination that holds none of its
names appends the source entries verbatim. -/
theorem copyEntries_id_aux (N : Nat) :
    ∀ (es ds : List (String × FSTree)), sizeOf es ≤ N → wfEntries es = true →
      (∀ n ∈ es.map Prod.fst, lookupA n ds = none) →
      copyEntries es ds = Except.ok (ds ++ es) := by
  induction N with
  | zero =>
    intro es ds hsz hwf hfresh
    cases es with
    | nil => simp [copyEntries]
    | cons e rest => simp at hsz
  | succ M ih =>
    intro es ds hsz hwf hfresh
    cases es with
    | nil => simp [copyEntries]
    | cons e rest =>
      obtain ⟨n, t⟩ := e
      simp only [wfEntries, Bool.and_eq_true] at hwf
      obtain ⟨⟨hni, hwt⟩, hwr⟩ := hwf
      have hrest_sz : sizeOf rest ≤ M := by
        simp at hsz
        omega
      have hlk : lookupA n ds = none :=
        hfresh n (by simp)
      have hnotin : n ∉ rest.map Prod.fst := by
        intro hmem
        have hs := lookupA_isSome_of_mem_keys n rest hmem
        rw [Option.isNone_iff_eq_none.mp hni] at hs
        simp at hs
      have hfresh' : ∀ (v : FSTree) (m : String), m ∈ rest.map Prod.fst →
          lookupA m (setA n v ds) = none := by
        intro v m hm
        have hmn : m ≠ n := fun he => hnotin (he ▸ hm)
        rw [lookupA_setA_ne _ _ _ _ hmn]
        exact hfresh m (List.mem_cons_of_mem _ hm)
      cases t with
      | file c =>
        simp only [copyEntries, hlk]
        rw [ih rest (setA n (FSTree.file c) ds) hrest_sz hwr
          (hfresh' (FSTree.file c)), setA_eq_append _ _ _ hlk]
        simp
      | dir subEs =>
        have hsubEs_sz : sizeOf subEs ≤ M := by
          simp at hsz
          omega
        have hwsub : wfEntries subEs = true := hwt
        have hsub : copyEntries subEs [] = Except.ok subEs := by
          have := ih subEs [] hsubEs_sz hwsub (fun m _ => rfl)
          simpa using this
        simp only [copyEntries, hlk]
        show (match copyFolderSync (FSTree.dir subEs) none with
          | Except.error e => Except.error e
          | Except.ok sub => copyEntries rest (setA n sub ds))
          = Except.ok (ds ++ (n, FSTree.dir subEs) :: rest)
        rw [show copyFolderSync (FSTree.dir subEs) none
            = Except.ok (FSTree.dir subEs) from by
          unfold copyFolderSync
          rw [hsub]
          rfl]
        dsimp only
        rw [ih rest (setA n (FSTree.dir subEs) ds) hrest_sz hwr
          (hfresh' (FSTree.dir subEs)), setA_eq_append _ _ _ hlk]
        simp

/-- `copyFolderSync` into an absent destination reproduces the source
tree exactly. -/
theorem copyFolderSync_id (es : List (String × FSTree)) (hwf : wfEntries es = true) :
    copyFolderSync (FSTree.dir es) none = Except.ok (FSTree.dir es) := by
  unfold copyFolderSync
  rw [copyEntries_id_aux (sizeOf es) es [] (Nat.le_refl _) hwf (fun n _ => rfl)]
  rfl

/-- C9 as stated is false: `copyFolderSync` never removes files already
present in the destination, so a pre-existing destination file that the
source lacks survives the copy and the two path sets differ.  Here the
copy of an empty source over a destination holding `extra` completes
without error and the destination still lists `extra`. -/
theorem claim_C9_counterexample :
    copyFolderSync (FSTree.dir []) (some (FSTree.dir [("extra", FSTree.file "x")]))
      = Except.ok (FSTree.dir [("extra", FSTree.file "x")]) ∧
    filePathsOf (FSTree.dir []) = [] ∧
    filePathsOf (FSTree.dir [("extra", FSTree.file "x")]) = [["extra"]] :=
  ⟨rfl, rfl, rfl⟩

/-- C9 (amended): after `copyFolderSync` completes without error on a
wellformed source directory, every file of the source is present in the
resulting destination at the same relative path with identical contents
(so the source's path set is included in the destination's); when the
destination did not previously exist the resulting tree is exactly the
source tree, and then the two path sets are identical. -/
theorem claim_C9_copy_preserves_files (es : List (String × FSTree)) (d : Option FSTree)
    (r : FSTree) (hwf : wfEntries es = true)
    (hc : copyFolderSync (FSTree.dir es) d = Except.ok r) :
    (∀ p ∈ filePathsOf (FSTree.dir es),
        getFile r p = getFile (FSTree.dir es) p ∧ p ∈ filePathsOf r) ∧
    (d = none → r = FSTree.dir es) := by
  have hmain : ∃ ds0 rs, copyEntries es ds0 = Except.ok rs ∧ r = FSTree.dir rs := by
    cases d with
    | none =>
      unfold copyFolderSync at hc
      rcases hce : copyEntries es [] with e1 | rs
      · rw [hce] at hc
        simp [Except.map] at hc
      · rw [hce] at hc
        simp only [Except.map] at hc
        injection hc with hc
        exact ⟨[], rs, hce, hc.symm⟩
    | some t0 =>
      cases t0 with
      | file c0 => simp [copyFolderSync] at hc
      | dir ds0 =>
        unfold copyFolderSync at hc
        rcases hce : copyEntries es ds0 with e1 | rs
        · rw [hce] at hc
          simp [Except.map] at hc
        · rw [hce] at hc
          simp only [Except.map] at hc
          injection hc with hc
          exact ⟨ds0, rs, hce, hc.symm⟩
  obtain ⟨ds0, rs, hce, hr⟩ := hmain
  subst hr
  constructor
  · intro p hp
    have hpr := copyEntries_preserves_aux (sizeOf es) es ds0 rs (Nat.le_refl _) hwf hce p hp
    refine ⟨hpr, ?_⟩
    have hwt : wfTree (FSTree.dir es) = true := hwf
    obtain ⟨c, hcc⟩ := getFile_isSome_of_mem p (FSTree.dir es) hwt hp
    exact mem_paths_of_getFile_some p (FSTree.dir rs) c (by rw [hpr, hcc])
  · intro hd
    subst hd
    have hid := copyFolderSync_id es hwf
    rw [hc] at hid
    exact Except.ok.inj hid

theorem claim_C9_copy_preserves_files_witness :
    wfEntries [("a", FSTree.file "x"),
               ("sub", FSTree.dir [("b", FSTree.file "y")])] = true ∧
    copyFolderSync
        (FSTree.dir [("a", FSTree.file "x"),
                     ("sub", FSTree.dir [("b", FSTree.file "y")])])
        (some (FSTree.dir [("a", FSTree.file "old")]))
      = Except.ok (FSTree.dir [("a", FSTree.file "x"),
                               ("sub", FSTree.dir [("b", FSTree.file "y")])]) ∧
    ((∀ p ∈ filePathsOf (FSTree.dir [("a", FSTree.file "x"),
                                     ("sub", FSTree.dir [("b", FSTree.file "y")])]),
        getFile (FSTree.dir [("a", FSTree.file "x"),
                             ("sub", FSTree.dir [("b", FSTree.file "y")])]) p
          = getFile (FSTree.dir [("a", FSTree.file "x"),
                                 ("sub", FSTree.dir [("b", FSTree.file "y")])]) p ∧
        p ∈ filePathsOf (FSTree.dir [("a", FSTree.file "x"),
                                     ("sub", FSTree.dir [("b", FSTree.file "y")])])) ∧
     (some (FSTree.dir [("a", FSTree.file "old")]) = none →
        FSTree.dir [("a", FSTree.file "x"),
                    ("sub", FSTree.dir [("b", FSTree.file "y")])]
          = FSTree.dir [("a", FSTree.file "x"),
                        ("sub", FSTree.dir [("b", FSTree.file "y")])])) :=
  ⟨rfl, rfl,
   claim_C9_copy_preserves_files
     [("a", FSTree.file "x"), ("sub", FSTree.dir [("b", FSTree.file "y")])]
     (some (FSTree.dir [("a", FSTree.file "old")]))
     (FSTree.dir [("a", FSTree.file "x"),
                  ("sub", FSTree.dir [("b", FSTree.file "y")])])
     rfl rfl⟩

end NxKuritkaj

